import Mathlib

/-!
Shallow embedding of the chunked CSV-processing pipeline of
`ReadCSVFile.py` (functions `process_csv_in_chunks`,
`_process_without_deduplication`, `_process_with_deduplication`,
`_remove_duplicates_across_chunks`, `get_deduplication_columns`,
`data_transformation`, `format_if_date`), together with proofs of the
specification claims about it.

Modelling conventions:
* Python/pandas strings are modelled as `List Char` (`Str`), so that the
  string manipulations of the source (`strip`, `lower`, `replace`, `split`,
  whitespace removal) are plain recursive functions amenable to proof.
* A CSV file on disk is a list of records, each record a list of typed
  scalar cells (`RawCell`): string, rational number, or missing.  This
  abstracts the textual round trip of `to_csv` / `read_csv` (a value is
  written and re-read as itself; a missing value is written as an empty
  field and re-read as missing); per-column dtype inference is not
  modelled, cells carry their own type, matching the spec's data model of
  rows as mappings from column names to scalar values.
* Reading a file materializes each missing cell as a float NaN object
  (`PyVal.nan oid`) carrying a fresh object identity, as pandas produces a
  fresh NaN float object per read.  Python container equality
  (`x is y or x == y`, as used by `set` and `dict` lookups on key tuples)
  is `pyMemEq`: value equality on strings and numbers, object identity on
  NaN (a NaN never compares `==`-equal to anything, itself included).
* `dateutil.parser.parse` + `strftime` (an external collaborator) is a
  parameter `parseD : Str → Str → Option Str`: given the cell text and the
  format, it returns the reformatted text when the value parses as a date.
* Reading the external `Rules.csv` is a parameter
  `rulesSrc : Except PyError CsvFile`: the fixed outcome that every
  `pd.read_csv` of the rules path yields during the run.
-/

namespace ExcelX

/-- Python exception classes that the modelled code can raise. -/
inductive PyError where
  /-- `FileNotFoundError` from `pd.read_csv` on a nonexistent path. -/
  | fileNotFound
  /-- `pandas.errors.EmptyDataError` from `pd.read_csv` on an empty file. -/
  | emptyData
  /-- `KeyError` from `first_occurrence_indices[combination]`
  or from `df[averageParts]` with an absent column. -/
  | keyError
  /-- any exception raised while reading or parsing the rules file. -/
  | rulesError
deriving DecidableEq

/-- Decidable equality of run outcomes, so that concrete runs can be
checked by `decide`. -/
instance exceptDecEq {ε α : Type} [DecidableEq ε] [DecidableEq α] :
    DecidableEq (Except ε α) := fun x y =>
  match x, y with
  | .error e, .error e' =>
    if h : e = e' then isTrue (by rw [h]) else
      isFalse (by intro hc; injection hc; contradiction)
  | .ok a, .ok b =>
    if h : a = b then isTrue (by rw [h]) else
      isFalse (by intro hc; injection hc; contradiction)
  | .error _, .ok _ => isFalse (by intro hc; cases hc)
  | .ok _, .error _ => isFalse (by intro hc; cases hc)

/-- Characters are the model of Python strings. -/
abbrev Str := List Char

/-- Coercion from Lean string literals to the `List Char` model. -/
def ofS (s : String) : Str := s.data

/-- Scalar cell value as stored in a CSV file: a string, a number, or a
missing field. -/
inductive RawCell where
  | str (s : Str)
  | num (q : ℚ)
  | missing
deriving DecidableEq

/-- In-memory Python scalar produced by reading a cell: strings and numbers
compare by value, while a missing cell materializes as a float NaN object
carrying an object identity `oid`. -/
inductive PyVal where
  | str (s : Str)
  | num (q : ℚ)
  | nan (oid : ℕ)
deriving DecidableEq

/-- Python `==` on scalars: value equality on strings and numbers; NaN is
`==`-unequal to everything, itself included; cross-type comparisons are
unequal. -/
def pyEq : PyVal → PyVal → Bool
  | .str a, .str b => a == b
  | .num a, .num b => a == b
  | _, _ => false

/-- The comparison Python containers use for membership and dict lookup:
`x is y or x == y`.  Object identity is modelled as structural equality
(for strings and numbers identity implies `==` anyway; for NaN it is
equality of object ids). -/
def pyMemEq (a b : PyVal) : Bool := a == b || pyEq a b

/-- Python tuple equality as used on deduplication-key tuples inside a
`set` or `dict`: componentwise `pyMemEq` on tuples of equal length. -/
def keyEq (k₁ k₂ : List PyVal) : Bool :=
  k₁.length == k₂.length && (List.zip k₁ k₂).all fun p => pyMemEq p.1 p.2

theorem pyMemEq_refl (a : PyVal) : pyMemEq a a = true := by
  simp [pyMemEq]

theorem pyMemEq_comm (a b : PyVal) : pyMemEq a b = pyMemEq b a := by
  cases a <;> cases b <;> simp [pyMemEq, pyEq, BEq.comm, eq_comm]

theorem pyMemEq_trans {a b c : PyVal} (h₁ : pyMemEq a b = true)
    (h₂ : pyMemEq b c = true) : pyMemEq a c = true := by
  cases a <;> cases b <;> cases c <;>
    simp_all [pyMemEq, pyEq]

theorem keyEq_nil_left {k : List PyVal} : keyEq [] k = true ↔ k = [] := by
  cases k <;> simp [keyEq]

theorem keyEq_nil_right {k : List PyVal} : keyEq k [] = true ↔ k = [] := by
  cases k <;> simp [keyEq]

theorem keyEq_cons {a b : PyVal} {t u : List PyVal} :
    keyEq (a :: t) (b :: u) = true ↔ pyMemEq a b = true ∧ keyEq t u = true := by
  simp only [keyEq, List.length_cons, List.zip_cons_cons, List.all_cons,
    Bool.and_eq_true, beq_iff_eq, Nat.add_right_cancel_iff]
  tauto

theorem keyEq_refl (k : List PyVal) : keyEq k k = true := by
  induction k with
  | nil => rfl
  | cons a t ih => exact keyEq_cons.mpr ⟨pyMemEq_refl a, ih⟩

theorem keyEq_symm {k₁ k₂ : List PyVal} (h : keyEq k₁ k₂ = true) :
    keyEq k₂ k₁ = true := by
  induction k₁ generalizing k₂ with
  | nil => rw [keyEq_nil_left] at h; simp [h, keyEq]
  | cons a t ih =>
    cases k₂ with
    | nil => simp [keyEq] at h
    | cons b u =>
      obtain ⟨h1, h2⟩ := keyEq_cons.mp h
      exact keyEq_cons.mpr ⟨by rw [pyMemEq_comm]; exact h1, ih h2⟩

theorem keyEq_trans {k₁ k₂ k₃ : List PyVal} (h₁ : keyEq k₁ k₂ = true)
    (h₂ : keyEq k₂ k₃ = true) : keyEq k₁ k₃ = true := by
  induction k₁ generalizing k₂ k₃ with
  | nil =>
    rw [keyEq_nil_left] at h₁; subst h₁
    rw [keyEq_nil_left] at h₂; subst h₂; rfl
  | cons a t ih =>
    cases k₂ with
    | nil => simp [keyEq] at h₁
    | cons b u =>
      cases k₃ with
      | nil => simp [keyEq] at h₂
      | cons c v =>
        obtain ⟨ha, ht⟩ := keyEq_cons.mp h₁
        obtain ⟨hb, hu⟩ := keyEq_cons.mp h₂
        exact keyEq_cons.mpr ⟨pyMemEq_trans ha hb, ih ht hu⟩

/-! ### String utilities

Models of the Python string operations the source uses on rule-cell text
and on data cells: `strip`, `replace`, `lower`, `split`, substring
containment, and whitespace removal. -/

/-- Whitespace characters recognized by `strip` / `\s` in the model. -/
def isWs (c : Char) : Bool := c == ' ' || c == '\t' || c == '\n' || c == '\r'

/-- Combined effect of `.strip()`, `.replace(" ", "")` and
`re.sub(r'\s+', '', value)` applied by the source to every rule cell:
every whitespace character is removed. -/
def removeWs (s : Str) : Str := s.filter fun c => !isWs c

/-- Python `str.strip()`: remove leading and trailing whitespace. -/
def trimStr (s : Str) : Str :=
  ((s.dropWhile isWs).reverse.dropWhile isWs).reverse

/-- Python `str.lower()` (restricted to ASCII letters, which is all the
source's rule keywords use). -/
def lowerStr (s : Str) : Str := s.map Char.toLower

/-- Python `str.replace(old, new)` replacing every occurrence, with
explicit fuel (the scan consumes at least one character per step, so fuel
`s.length` computes the full replacement). -/
def replaceAllFuel (pat rep : Str) : ℕ → Str → Str
  | 0, s => s
  | _ + 1, [] => []
  | fuel + 1, c :: t =>
    if pat ≠ [] ∧ pat.isPrefixOf (c :: t) then
      rep ++ replaceAllFuel pat rep fuel ((c :: t).drop pat.length)
    else
      c :: replaceAllFuel pat rep fuel t

/-- Python `str.replace(old, new)` on the whole string. -/
def replaceAll (pat rep s : Str) : Str := replaceAllFuel pat rep s.length s

/-- Python `str.split(sep)` for a one-character separator. -/
def splitOnChar (sep : Char) : Str → List Str
  | [] => [[]]
  | c :: t =>
    if c == sep then [] :: splitOnChar sep t
    else
      match splitOnChar sep t with
      | [] => [[c]]
      | h :: r => (c :: h) :: r

/-- Python `needle in haystack` substring containment. -/
def containsSub (needle : Str) : Str → Bool
  | [] => needle.isEmpty
  | c :: t => needle.isPrefixOf (c :: t) || containsSub needle t

/-- Decimal digits of a natural number (used by `str()` on numbers). -/
def natToStr (n : ℕ) : Str := Nat.toDigits 10 n

/-- Python `str()` of an integer. -/
def intToStr (i : ℤ) : Str :=
  if i < 0 then '-' :: natToStr i.natAbs else natToStr i.natAbs

/-- Text form of a rational cell as written by `to_csv` / produced by
`str()`: an integral value prints as an integer; the (rare) non-integral
case is given a fixed concrete form with a decimal point. -/
def ratToStr (q : ℚ) : Str :=
  if q.den = 1 then intToStr q.num
  else intToStr q.num ++ '.' :: natToStr q.den

/-- Value of a digit string, if every character is a digit. -/
def digitsToNat : Str → Option ℕ
  | [] => none
  | s =>
    if s.all Char.isDigit then
      some (s.foldl (fun acc c => 10 * acc + (c.toNat - 48)) 0)
    else none

/-- Model of `pd.to_numeric`'s string parsing: optional sign, an integer
part, and an optional fractional part. -/
def parseNumStr (s : Str) : Option ℚ :=
  let core : Str → Option ℚ := fun t =>
    match splitOnChar '.' t with
    | [a] => (digitsToNat a).map fun n => (n : ℚ)
    | [a, b] =>
      match digitsToNat a, digitsToNat b with
      | some n, some f => some ((n : ℚ) + (f : ℚ) / ((10 : ℚ) ^ b.length))
      | _, _ => none
    | _ => none
  match s with
  | '-' :: t => (core t).map Neg.neg
  | '+' :: t => core t
  | t => core t

/-- No character of the string is an ASCII uppercase letter. -/
def noUpper (s : Str) : Bool := s.all fun c => !(65 ≤ c.toNat && c.toNat ≤ 90)

theorem toNat_ofNat_shift {n : ℕ} (h1 : 65 ≤ n) (h2 : n ≤ 90) :
    (Char.ofNat (n + 32)).toNat = n + 32 := by
  interval_cases n <;> decide

theorem toLower_not_upper (c : Char) :
    (!(65 ≤ (Char.toLower c).toNat && (Char.toLower c).toNat ≤ 90)) = true := by
  by_cases h : 65 ≤ c.toNat ∧ c.toNat ≤ 90
  · have heq : Char.toLower c = Char.ofNat (c.toNat + 32) := by
      show (if c.toNat ≥ 65 ∧ c.toNat ≤ 90 then Char.ofNat (c.toNat + 32) else c) = _
      exact if_pos h
    rw [heq, toNat_ofNat_shift h.1 h.2]
    simp only [Bool.not_eq_true', Bool.and_eq_false_iff, decide_eq_false_iff_not]
    omega
  · have heq : Char.toLower c = c := by
      show (if c.toNat ≥ 65 ∧ c.toNat ≤ 90 then Char.ofNat (c.toNat + 32) else c) = _
      exact if_neg h
    rw [heq]
    simp only [Bool.not_eq_true', Bool.and_eq_false_iff, decide_eq_false_iff_not]
    omega

theorem noUpper_lowerStr (s : Str) : noUpper (lowerStr s) = true := by
  simp only [noUpper, lowerStr, List.all_map, List.all_eq_true]
  intro c _
  exact toLower_not_upper c

theorem noUpper_of_subset {s t : Str} (hsub : ∀ c ∈ s, c ∈ t)
    (ht : noUpper t = true) : noUpper s = true := by
  simp only [noUpper, List.all_eq_true] at *
  exact fun c hc => ht c (hsub c hc)

theorem mem_replaceAllFuel_nilRep {pat : Str} {fuel : ℕ} {s : Str} {c : Char}
    (h : c ∈ replaceAllFuel pat [] fuel s) : c ∈ s := by
  induction fuel generalizing s with
  | zero => exact h
  | succ fuel ih =>
    cases s with
    | nil => exact h
    | cons a t =>
      unfold replaceAllFuel at h
      split at h
      · simp only [List.nil_append] at h
        have := ih h
        exact List.mem_of_mem_drop this
      · rcases List.mem_cons.mp h with h | h
        · exact List.mem_cons.mpr (Or.inl h)
        · exact List.mem_cons.mpr (Or.inr (ih h))

theorem mem_splitOnChar {sep : Char} {s : Str} {part : Str} {c : Char}
    (hp : part ∈ splitOnChar sep s) (hc : c ∈ part) : c ∈ s := by
  induction s generalizing part with
  | nil =>
    simp only [splitOnChar, List.mem_singleton] at hp
    subst hp
    simp at hc
  | cons a t ih =>
    unfold splitOnChar at hp
    split at hp
    · rcases List.mem_cons.mp hp with h | h
      · subst h; simp at hc
      · exact List.mem_cons.mpr (Or.inr (ih h hc))
    · cases hsp : splitOnChar sep t with
      | nil =>
        rw [hsp] at hp
        rcases List.mem_singleton.mp hp with h
        subst h
        rcases List.mem_singleton.mp hc with h
        subst h
        exact List.mem_cons.mpr (Or.inl rfl)
      | cons h' r =>
        rw [hsp] at hp
        rcases List.mem_cons.mp hp with h | h
        · subst h
          rcases List.mem_cons.mp hc with h | h
          · subst h
            exact List.mem_cons.mpr (Or.inl rfl)
          · refine List.mem_cons.mpr (Or.inr (@ih h' ?_ h))
            rw [hsp]
            exact List.mem_cons.mpr (Or.inl rfl)
        · refine List.mem_cons.mpr (Or.inr (@ih part ?_ hc))
          rw [hsp]
          exact List.mem_cons.mpr (Or.inr h)

theorem mem_trimStr {s : Str} {c : Char} (h : c ∈ trimStr s) : c ∈ s := by
  unfold trimStr at h
  rw [List.mem_reverse] at h
  have h1 := (List.dropWhile_sublist isWs).mem h
  rw [List.mem_reverse] at h1
  exact (List.dropWhile_sublist isWs).mem h1

/-! ### Files, reading and writing

A file is a list of records.  `pd.read_csv` takes the first record as the
column labels and materializes the remaining records, giving every missing
cell a fresh NaN object.  `to_csv` writes values back, NaN as a missing
field. -/

/-- A CSV file on disk: a list of records of typed cells. -/
structure CsvFile where
  records : List (List RawCell)
deriving DecidableEq

/-- Text form of a raw cell, as used for column labels when a record is
consumed as the header line. -/
def rawCellToStr : RawCell → Str
  | .str s => s
  | .num q => ratToStr q
  | .missing => ofS "nan"

/-- Column labels obtained by `pd.read_csv` from a file's first record. -/
def headerNames (rec : List RawCell) : List Str := rec.map rawCellToStr

/-- Object id of the NaN materialized during read pass `p` at data row `i`,
column `j`; distinct passes yield distinct objects. -/
def nanId (p i j : ℕ) : ℕ := Nat.pair p (Nat.pair i j)

/-- Reading one cell during pass `p` at data row `i`, column `j`. -/
def materializeCell (p i j : ℕ) : RawCell → PyVal
  | .str s => .str s
  | .num q => .num q
  | .missing => .nan (nanId p i j)

/-- Reading one data record during pass `p` at data row `i`. -/
def materializeRec (p i : ℕ) (rec : List RawCell) : List PyVal :=
  (rec.enumFrom 0).map fun jc => materializeCell p i jc.1 jc.2

/-- Reading the data records of a file during pass `p`. -/
def materializeRows (p : ℕ) (recs : List (List RawCell)) : List (List PyVal) :=
  (recs.enumFrom 0).map fun ir => materializeRec p ir.1 ir.2

/-- Writing one value with `to_csv`: NaN becomes a missing field. -/
def unmaterializeCell : PyVal → RawCell
  | .str s => .str s
  | .num q => .num q
  | .nan _ => .missing

/-- Writing one row with `to_csv`. -/
def unmaterializeRow (r : List PyVal) : List RawCell := r.map unmaterializeCell

theorem unmaterializeCell_materializeCell (p i j : ℕ) (c : RawCell) :
    unmaterializeCell (materializeCell p i j c) = c := by
  cases c <;> rfl

theorem unmaterializeRow_materializeRec (p i : ℕ) (rec : List RawCell) :
    unmaterializeRow (materializeRec p i rec) = rec := by
  unfold unmaterializeRow materializeRec
  rw [List.map_map]
  have : (unmaterializeCell ∘ fun jc : ℕ × RawCell => materializeCell p i jc.1 jc.2) =
      fun jc : ℕ × RawCell => jc.2 := by
    funext jc
    exact unmaterializeCell_materializeCell p i jc.1 jc.2
  rw [this]
  have := List.enumFrom_map_snd 0 rec
  exact this

/-- A materialized cell of one pass carries the same value as the same cell
of another pass whenever the cell is not missing. -/
theorem materializeCell_of_ne_missing {c : RawCell} (h : c ≠ .missing)
    (p p' i i' j j' : ℕ) : materializeCell p i j c = materializeCell p' i' j' c := by
  cases c <;> simp_all [materializeCell]

/-- Association-list lookup with Python tuple equality: the model of both
`combination in seen_combinations` (`isSome`) and
`first_occurrence_indices[combination]`. -/
def alookup {β : Type} (k : List PyVal) : List (List PyVal × β) → Option β
  | [] => none
  | (k', v) :: t => if keyEq k k' then some v else alookup k t

theorem alookup_map_snd {β γ : Type} (g : β → γ) (k : List PyVal)
    (l : List (List PyVal × β)) :
    alookup k (l.map fun p => (p.1, g p.2)) = (alookup k l).map g := by
  induction l with
  | nil => rfl
  | cons p t ih =>
    unfold alookup
    by_cases h : keyEq k p.1 = true <;> simp [h, ih]

theorem alookup_append {β : Type} (k : List PyVal) (l₁ l₂ : List (List PyVal × β)) :
    alookup k (l₁ ++ l₂) = (alookup k l₁).or (alookup k l₂) := by
  induction l₁ with
  | nil => simp [alookup]
  | cons p t ih =>
    show alookup k (p :: (t ++ l₂)) = _
    conv_lhs => rw [alookup]
    conv_rhs => rw [alookup]
    by_cases h : keyEq k p.1 = true <;> simp [h, ih]

/-! ### Chunking

`pd.read_csv(..., chunksize=n)` yields the data rows in consecutive
windows of `n` rows (the last window may be shorter; a file with no data
rows yields no chunks), each row keeping its global position in the
file-wide `RangeIndex` — which is what `iterrows` hands to the source as
`idx`. -/

/-- Fuel-driven worker for `chunksOf` (each step consumes at least one
element, so fuel `l.length` suffices; structural recursion keeps the
definition kernel-reducible). -/
def chunksOfF (n : ℕ) : ℕ → List α → List (List α)
  | 0, _ => []
  | _ + 1, [] => []
  | fuel + 1, x :: t => (x :: t.take (n - 1)) :: chunksOfF n fuel (t.drop (n - 1))

/-- Split a list into consecutive chunks; for `0 < n` every chunk has
exactly `n` elements except possibly the last. -/
def chunksOf (n : ℕ) (l : List α) : List (List α) := chunksOfF n l.length l

theorem chunksOfF_eq (n : ℕ) :
    ∀ (f₁ f₂ : ℕ) (l : List α), l.length ≤ f₁ → l.length ≤ f₂ →
      chunksOfF n f₁ l = chunksOfF n f₂ l := by
  intro f₁
  induction f₁ with
  | zero =>
    intro f₂ l h1 _
    rw [Nat.le_zero, List.length_eq_zero] at h1
    subst h1
    cases f₂ <;> rfl
  | succ f₁ ih =>
    intro f₂ l h1 h2
    cases l with
    | nil => cases f₂ <;> rfl
    | cons x t =>
      obtain ⟨g, rfl⟩ : ∃ g, f₂ = g + 1 := by
        cases f₂ with
        | zero => simp at h2
        | succ g => exact ⟨g, rfl⟩
      show _ :: chunksOfF n f₁ (t.drop (n - 1)) = _ :: chunksOfF n g (t.drop (n - 1))
      rw [ih g (t.drop (n - 1)) (by simp at h1 ⊢; omega) (by simp at h2 ⊢; omega)]

theorem chunksOfF_fuel (n : ℕ) (fuel : ℕ) (l : List α) (h : l.length ≤ fuel) :
    chunksOfF n fuel l = chunksOf n l :=
  chunksOfF_eq n fuel l.length l h le_rfl

theorem chunksOf_nil (n : ℕ) : chunksOf n ([] : List α) = [] := rfl

theorem chunksOf_cons_eq {n : ℕ} (hn : 0 < n) (x : α) (t : List α) :
    chunksOf n (x :: t) = (x :: t).take n :: chunksOf n ((x :: t).drop n) := by
  show chunksOfF n (t.length + 1) (x :: t) = _
  show (x :: t.take (n - 1)) :: chunksOfF n t.length (t.drop (n - 1)) = _
  rw [chunksOfF_fuel n t.length (t.drop (n - 1)) (by simp)]
  obtain ⟨m, rfl⟩ : ∃ m, n = m + 1 := ⟨n - 1, by omega⟩
  simp

theorem chunksOf_ne_nil_cons (n : ℕ) (x : α) (t : List α) :
    chunksOf n (x :: t) ≠ [] := by
  show chunksOfF n (t.length + 1) (x :: t) ≠ []
  show _ :: _ ≠ []
  simp

theorem flatten_chunksOf_bounded (n N : ℕ) :
    ∀ l : List α, l.length ≤ N → (chunksOf n l).flatten = l := by
  induction N with
  | zero =>
    intro l h
    rw [Nat.le_zero, List.length_eq_zero] at h
    subst h
    simp [chunksOf_nil]
  | succ N ih =>
    intro l h
    cases l with
    | nil => simp [chunksOf_nil]
    | cons x t =>
      show (chunksOfF n (t.length + 1) (x :: t)).flatten = _
      show ((x :: t.take (n - 1)) :: chunksOfF n t.length (t.drop (n - 1))).flatten = _
      rw [List.flatten_cons, chunksOfF_fuel n t.length _ (by simp)]
      rw [ih (t.drop (n - 1)) (by simp at h ⊢; omega)]
      simp

theorem flatten_chunksOf (n : ℕ) (l : List α) : (chunksOf n l).flatten = l :=
  flatten_chunksOf_bounded n l.length l le_rfl

theorem take_enumFrom (k m : ℕ) (l : List α) :
    (l.enumFrom k).take m = (l.take m).enumFrom k := by
  induction l generalizing k m with
  | nil => simp
  | cons x t ih =>
    cases m with
    | zero => simp
    | succ m => simp [List.enumFrom_cons, ih]

theorem drop_enumFrom (k m : ℕ) (l : List α) :
    (l.enumFrom k).drop m = (l.drop m).enumFrom (k + m) := by
  induction l generalizing k m with
  | nil => simp
  | cons x t ih =>
    cases m with
    | zero => simp
    | succ m =>
      simp only [List.enumFrom_cons, List.drop_succ_cons, ih]
      congr 1
      omega

/-! ### The Global Deduplication Engine

Model of `_remove_duplicates_across_chunks`: two chunked passes over the
intermediate file.  Pass 1 records, for the first row carrying each key,
the pair `(chunk_num, idx % chunk_size)`; pass 2 re-reads the file and
keeps a row iff its own `(chunk_num, idx % chunk_size)` equals the
recorded pair.  `idx` is the pandas global row index, continuous across
chunks. -/

/-- `tuple(row[col] for col in dedup_columns if col in chunk.columns)`. -/
def makeKey (cols hdr : List Str) (row : List PyVal) : List PyVal :=
  (cols.filter fun c => hdr.contains c).map fun c => row.getD (hdr.indexOf c) (.nan 0)

/-- One row of the first pass: a key not yet in `seen_combinations` is
added to it together with its first sighting `(chunk_num, idx % n)`. -/
def pass1Step (keyOf : List PyVal → List PyVal) (n cn : ℕ)
    (acc : List (List PyVal × (ℕ × ℕ))) (p : ℕ × List PyVal) :
    List (List PyVal × (ℕ × ℕ)) :=
  if (alookup (keyOf p.2) acc).isSome then acc else acc ++ [(keyOf p.2, (cn, p.1 % n))]

/-- First pass over the chunks (`for chunk_num, chunk in enumerate(...)`,
then `for idx, row in chunk.iterrows()`). -/
def pass1Chunks (keyOf : List PyVal → List PyVal) (n : ℕ) :
    ℕ → List (List (ℕ × List PyVal)) → List (List PyVal × (ℕ × ℕ)) →
    List (List PyVal × (ℕ × ℕ))
  | _, [], acc => acc
  | cn, ch :: rest, acc =>
    pass1Chunks keyOf n (cn + 1) rest (ch.foldl (pass1Step keyOf n cn) acc)

/-- Second pass over one chunk: build the keep-mask and filter.  A key
absent from `first_occurrence_indices` raises `KeyError`; a row is kept iff
`chunk_num == expected_chunk and (idx % chunk_size) == expected_idx`. -/
def pass2Kept (keyOf : List PyVal → List PyVal) (fo : List (List PyVal × (ℕ × ℕ)))
    (n cn : ℕ) : List (ℕ × List PyVal) → Except PyError (List (List PyVal))
  | [] => .ok []
  | p :: t =>
    match alookup (keyOf p.2) fo with
    | none => .error .keyError
    | some ec =>
      match pass2Kept keyOf fo n cn t with
      | .error e => .error e
      | .ok rest => .ok (if cn = ec.1 ∧ p.1 % n = ec.2 then p.2 :: rest else rest)

/-- Append the kept rows of one pass-2 chunk to the output file: the first
nonempty filtered chunk creates the file and `to_csv` writes the column
labels as a header line (unconditionally — `header` is not passed);
later chunks append without a header; an empty filtered chunk writes
nothing. -/
def writeKept (hdrRec : List RawCell) (acc : Option CsvFile)
    (kept : List (List PyVal)) : Option CsvFile :=
  if kept.isEmpty then acc
  else
    match acc with
    | none => some ⟨hdrRec :: kept.map unmaterializeRow⟩
    | some f => some ⟨f.records ++ kept.map unmaterializeRow⟩

/-- Second pass over the chunks, writing the deduplicated output.  On a
`KeyError` the chunks already written remain in the output. -/
def pass2Chunks (keyOf : List PyVal → List PyVal) (fo : List (List PyVal × (ℕ × ℕ)))
    (n : ℕ) (hdrRec : List RawCell) :
    ℕ → List (List (ℕ × List PyVal)) → Option CsvFile →
    Except PyError Unit × Option CsvFile
  | _, [], acc => (.ok (), acc)
  | cn, ch :: rest, acc =>
    match pass2Kept keyOf fo n cn ch with
    | .error e => (.error e, acc)
    | .ok kept => pass2Chunks keyOf fo n hdrRec (cn + 1) rest (writeKept hdrRec acc kept)

/-- Model of `_remove_duplicates_across_chunks(input_file, output_file,
dedup_columns, chunk_size)`: result and the output file written (possibly
partially written when the second pass raises). -/
def removeDuplicatesAcrossChunks (inputF : Option CsvFile) (cols : List Str)
    (n : ℕ) : Except PyError Unit × Option CsvFile :=
  match inputF with
  | none => (.error .fileNotFound, none)
  | some f =>
    match f.records with
    | [] => (.error .emptyData, none)
    | hdrRec :: dataRecs =>
      let H := headerNames hdrRec
      let keyOf := makeKey cols H
      let fo := pass1Chunks keyOf n 0
        (chunksOf n ((materializeRows 1 dataRecs).enumFrom 0)) []
      pass2Chunks keyOf fo n (H.map RawCell.str) 0
        (chunksOf n ((materializeRows 2 dataRecs).enumFrom 0)) none

/-! ### Flat (chunk-free) form of the deduplication engine

Reference semantics used to prove chunk-size invariance: the same two
passes over the un-chunked row stream, recording the global index itself
instead of `(chunk_num, idx % chunk_size)`. -/

/-- Flat first pass: first global index of each key, in sighting order. -/
def pass1Flat (keyOf : List PyVal → List PyVal) :
    List (ℕ × List PyVal) → List (List PyVal × ℕ) → List (List PyVal × ℕ)
  | [], acc => acc
  | p :: t, acc =>
    pass1Flat keyOf t
      (if (alookup (keyOf p.2) acc).isSome then acc else acc ++ [(keyOf p.2, p.1)])

/-- Flat second pass: a row is kept iff its global index is the recorded
first-sighting index of its key; an unknown key raises `KeyError`. -/
def flatKept (keyOf : List PyVal → List PyVal) (fo : List (List PyVal × ℕ)) :
    List (ℕ × List PyVal) → Except PyError (List (List PyVal))
  | [] => .ok []
  | p :: t =>
    match alookup (keyOf p.2) fo with
    | none => .error .keyError
    | some i₀ =>
      match flatKept keyOf fo t with
      | .error e => .error e
      | .ok rest => .ok (if p.1 = i₀ then p.2 :: rest else rest)

/-- Flat form of the whole deduplication engine. -/
def flatDedup (inputF : Option CsvFile) (cols : List Str) :
    Except PyError (Option CsvFile) :=
  match inputF with
  | none => .error .fileNotFound
  | some f =>
    match f.records with
    | [] => .error .emptyData
    | hdrRec :: dataRecs =>
      let H := headerNames hdrRec
      let keyOf := makeKey cols H
      let fo := pass1Flat keyOf ((materializeRows 1 dataRecs).enumFrom 0) []
      match flatKept keyOf fo ((materializeRows 2 dataRecs).enumFrom 0) with
      | .error e => .error e
      | .ok kept =>
        .ok (if kept.isEmpty then none
          else some ⟨(H.map RawCell.str) :: kept.map unmaterializeRow⟩)

/-! ### Bridge between the chunked and the flat deduplication passes

For `0 < n` the pair `(idx / n, idx % n)` determines `idx`, which makes
the chunked bookkeeping `(chunk_num, idx % chunk_size)` equivalent to
recording the global index. -/

/-- Reinterpret a flat first-occurrence entry in chunked form. -/
def stampOf (n : ℕ) (p : List PyVal × ℕ) : List PyVal × (ℕ × ℕ) :=
  (p.1, (p.2 / n, p.2 % n))

theorem enumFrom_fst_bounds {k : ℕ} {l : List α} {p : ℕ × α}
    (hp : p ∈ l.enumFrom k) : k ≤ p.1 ∧ p.1 < k + l.length := by
  induction l generalizing k with
  | nil => simp at hp
  | cons x t ih =>
    rw [List.enumFrom_cons] at hp
    rcases List.mem_cons.mp hp with h | h
    · subst h; simp
    · have := ih h
      simp only [List.length_cons]
      omega

theorem pass1Flat_append (keyOf : List PyVal → List PyVal)
    (l₁ l₂ : List (ℕ × List PyVal)) (acc : List (List PyVal × ℕ)) :
    pass1Flat keyOf (l₁ ++ l₂) acc = pass1Flat keyOf l₂ (pass1Flat keyOf l₁ acc) := by
  induction l₁ generalizing acc with
  | nil => rfl
  | cons p t ih => simp [pass1Flat, ih]

theorem pass1_chunk_inner (keyOf : List PyVal → List PyVal) {n cn : ℕ}
    (ch : List (ℕ × List PyVal)) (hch : ∀ p ∈ ch, p.1 / n = cn) :
    ∀ accF : List (List PyVal × ℕ),
      ch.foldl (pass1Step keyOf n cn) (accF.map (stampOf n)) =
        (pass1Flat keyOf ch accF).map (stampOf n) := by
  induction ch with
  | nil => intro accF; rfl
  | cons p t ih =>
    intro accF
    have hp := hch p (List.mem_cons.mpr (Or.inl rfl))
    have ht : ∀ q ∈ t, q.1 / n = cn := fun q hq => hch q (List.mem_cons.mpr (Or.inr hq))
    rw [List.foldl_cons, pass1Flat]
    have hlook : alookup (keyOf p.2) (accF.map (stampOf n)) =
        (alookup (keyOf p.2) accF).map fun i => (i / n, i % n) := by
      have := alookup_map_snd (fun i => (i / n, i % n)) (keyOf p.2) accF
      simpa [stampOf] using this
    unfold pass1Step
    rw [hlook, Option.isSome_map']
    by_cases h : (alookup (keyOf p.2) accF).isSome = true
    · rw [if_pos h, if_pos h]
      exact ih ht accF
    · rw [if_neg h, if_neg h]
      have : accF.map (stampOf n) ++ [(keyOf p.2, (cn, p.1 % n))] =
          (accF ++ [(keyOf p.2, p.1)]).map (stampOf n) := by
        rw [List.map_append]
        simp [stampOf, hp]
      rw [this]
      exact ih ht (accF ++ [(keyOf p.2, p.1)])

theorem pass1_bridge (keyOf : List PyVal → List PyVal) {n : ℕ} (hn : 0 < n) :
    ∀ (N : ℕ) (l : List (List PyVal)) (cn : ℕ) (accF : List (List PyVal × ℕ)),
      l.length ≤ N →
      pass1Chunks keyOf n cn (chunksOf n (l.enumFrom (cn * n))) (accF.map (stampOf n)) =
        (pass1Flat keyOf (l.enumFrom (cn * n)) accF).map (stampOf n) := by
  intro N
  induction N with
  | zero =>
    intro l cn accF h
    rw [Nat.le_zero, List.length_eq_zero] at h
    subst h
    simp [chunksOf_nil, pass1Chunks, pass1Flat]
  | succ N ih =>
    intro l cn accF h
    cases l with
    | nil => simp [chunksOf_nil, pass1Chunks, pass1Flat]
    | cons x t =>
      rw [List.enumFrom_cons, chunksOf_cons_eq hn, ← List.enumFrom_cons]
      rw [take_enumFrom, drop_enumFrom]
      rw [pass1Chunks]
      have hch : ∀ p ∈ ((x :: t).take n).enumFrom (cn * n), p.1 / n = cn := by
        intro p hp
        have hb := enumFrom_fst_bounds hp
        have hlen : ((x :: t).take n).length ≤ n := by
          simp [List.length_take]
        refine Nat.div_eq_of_lt_le hb.1 ?_
        calc p.1 < cn * n + ((x :: t).take n).length := hb.2
          _ ≤ cn * n + n := by omega
          _ = (cn + 1) * n := by ring
      rw [pass1_chunk_inner keyOf _ hch accF]
      have hmul : cn * n + n = (cn + 1) * n := by ring
      rw [hmul]
      rw [ih ((x :: t).drop n) (cn + 1) (pass1Flat keyOf (((x :: t).take n).enumFrom (cn * n)) accF)
        (by simp only [List.length_drop, List.length_cons] at *; omega)]
      congr 1
      rw [← pass1Flat_append]
      rw [← hmul, ← drop_enumFrom, ← take_enumFrom, List.take_append_drop]

theorem flatKept_append (keyOf : List PyVal → List PyVal)
    (fo : List (List PyVal × ℕ)) (l₁ l₂ : List (ℕ × List PyVal)) :
    flatKept keyOf fo (l₁ ++ l₂) =
      match flatKept keyOf fo l₁ with
      | .error e => .error e
      | .ok k₁ =>
        match flatKept keyOf fo l₂ with
        | .error e => .error e
        | .ok k₂ => .ok (k₁ ++ k₂) := by
  induction l₁ with
  | nil =>
    simp only [List.nil_append]
    cases flatKept keyOf fo l₂ <;> simp [flatKept]
  | cons p t ih =>
    show flatKept keyOf fo (p :: (t ++ l₂)) = _
    rw [flatKept, ih, flatKept]
    cases alookup (keyOf p.2) fo with
    | none => rfl
    | some i₀ =>
      cases flatKept keyOf fo t with
      | error e => rfl
      | ok k₁ =>
        cases flatKept keyOf fo l₂ with
        | error e => rfl
        | ok k₂ =>
          by_cases h : p.1 = i₀ <;> simp [h]

theorem pass2_chunk_inner (keyOf : List PyVal → List PyVal) {n cn : ℕ} (hn : 0 < n)
    (foF : List (List PyVal × ℕ)) (ch : List (ℕ × List PyVal))
    (hch : ∀ p ∈ ch, p.1 / n = cn) :
    pass2Kept keyOf (foF.map (stampOf n)) n cn ch = flatKept keyOf foF ch := by
  induction ch with
  | nil => rfl
  | cons p t ih =>
    have hp := hch p (List.mem_cons.mpr (Or.inl rfl))
    have ht : ∀ q ∈ t, q.1 / n = cn := fun q hq => hch q (List.mem_cons.mpr (Or.inr hq))
    rw [pass2Kept, flatKept]
    have hlook : alookup (keyOf p.2) (foF.map (stampOf n)) =
        (alookup (keyOf p.2) foF).map fun i => (i / n, i % n) := by
      have := alookup_map_snd (fun i => (i / n, i % n)) (keyOf p.2) foF
      simpa [stampOf] using this
    rw [hlook]
    cases hl : alookup (keyOf p.2) foF with
    | none => rfl
    | some i₀ =>
      simp only [Option.map_some']
      rw [ih ht]
      cases flatKept keyOf foF t with
      | error e => rfl
      | ok rest =>
        have hcond : (cn = i₀ / n ∧ p.1 % n = i₀ % n) ↔ p.1 = i₀ := by
          constructor
          · intro ⟨h1, h2⟩
            have h3 : p.1 / n = i₀ / n := hp.trans h1
            have e1 : n * (p.1 / n) + p.1 % n = p.1 := Nat.div_add_mod p.1 n
            have e2 : n * (i₀ / n) + i₀ % n = i₀ := Nat.div_add_mod i₀ n
            rw [h3, h2] at e1
            exact e1.symm.trans e2
          · intro h; subst h
            exact ⟨hp.symm, rfl⟩
        show Except.ok (if cn = i₀ / n ∧ p.1 % n = i₀ % n then p.2 :: rest else rest) =
          (Except.ok (if p.1 = i₀ then p.2 :: rest else rest) :
            Except PyError (List (List PyVal)))
        by_cases h : p.1 = i₀
        · rw [if_pos (hcond.mpr h), if_pos h]
        · rw [if_neg (fun hc => h (hcond.mp hc)), if_neg h]

theorem writeKept_append (hdrRec : List RawCell) (acc : Option CsvFile)
    (k₁ k₂ : List (List PyVal)) :
    writeKept hdrRec (writeKept hdrRec acc k₁) k₂ = writeKept hdrRec acc (k₁ ++ k₂) := by
  cases k₁ with
  | nil => simp [writeKept]
  | cons a t =>
    cases k₂ with
    | nil => simp [writeKept]
    | cons b u =>
      cases acc <;> simp [writeKept]

theorem pass2_bridge (keyOf : List PyVal → List PyVal) {n : ℕ} (hn : 0 < n)
    (foF : List (List PyVal × ℕ)) (hdrRec : List RawCell) :
    ∀ (N : ℕ) (l : List (List PyVal)) (cn : ℕ) (acc : Option CsvFile),
      l.length ≤ N →
      (∀ e, flatKept keyOf foF (l.enumFrom (cn * n)) = .error e →
        (pass2Chunks keyOf (foF.map (stampOf n)) n hdrRec cn
          (chunksOf n (l.enumFrom (cn * n))) acc).1 = .error e) ∧
      (∀ kept, flatKept keyOf foF (l.enumFrom (cn * n)) = .ok kept →
        pass2Chunks keyOf (foF.map (stampOf n)) n hdrRec cn
          (chunksOf n (l.enumFrom (cn * n))) acc = (.ok (), writeKept hdrRec acc kept)) := by
  intro N
  induction N with
  | zero =>
    intro l cn acc h
    rw [Nat.le_zero, List.length_eq_zero] at h
    subst h
    constructor
    · intro e he; simp [flatKept] at he
    · intro kept hk
      simp only [flatKept] at hk
      cases hk
      simp [chunksOf_nil, pass2Chunks, writeKept]
  | succ N ih =>
    intro l cn acc h
    cases l with
    | nil =>
      constructor
      · intro e he; simp [flatKept] at he
      · intro kept hk
        simp only [flatKept] at hk
        cases hk
        simp [chunksOf_nil, pass2Chunks, writeKept]
    | cons x t =>
      rw [List.enumFrom_cons, chunksOf_cons_eq hn, ← List.enumFrom_cons]
      rw [take_enumFrom, drop_enumFrom]
      have hch : ∀ p ∈ ((x :: t).take n).enumFrom (cn * n), p.1 / n = cn := by
        intro p hp
        have hb := enumFrom_fst_bounds hp
        have hlen : ((x :: t).take n).length ≤ n := by
          simp [List.length_take]
        refine Nat.div_eq_of_lt_le hb.1 ?_
        calc p.1 < cn * n + ((x :: t).take n).length := hb.2
          _ ≤ cn * n + n := by omega
          _ = (cn + 1) * n := by ring
      have hsplit : (x :: t).enumFrom (cn * n) =
          ((x :: t).take n).enumFrom (cn * n) ++ ((x :: t).drop n).enumFrom (cn * n + n) := by
        rw [← drop_enumFrom, ← take_enumFrom, List.take_append_drop]
      have hmul : cn * n + n = (cn + 1) * n := by ring
      have hdroplen : ((x :: t).drop n).length ≤ N := by
        simp only [List.length_drop, List.length_cons] at *
        omega
      rw [pass2Chunks, pass2_chunk_inner keyOf hn foF _ hch]
      constructor
      · intro e he
        rw [hsplit, flatKept_append] at he
        cases h₁ : flatKept keyOf foF (((x :: t).take n).enumFrom (cn * n)) with
        | error e' =>
          rw [h₁] at he
          cases he
          rfl
        | ok k₁ =>
          rw [h₁] at he
          cases h₂ : flatKept keyOf foF (((x :: t).drop n).enumFrom (cn * n + n)) with
          | error e' =>
            rw [h₂] at he
            cases he
            have := (ih ((x :: t).drop n) (cn + 1) (writeKept hdrRec acc k₁) hdroplen).1 e
            rw [← hmul] at this
            exact this h₂
          | ok k₂ =>
            rw [h₂] at he
            cases he
      · intro kept hk
        rw [hsplit, flatKept_append] at hk
        cases h₁ : flatKept keyOf foF (((x :: t).take n).enumFrom (cn * n)) with
        | error e' =>
          rw [h₁] at hk
          cases hk
        | ok k₁ =>
          rw [h₁] at hk
          cases h₂ : flatKept keyOf foF (((x :: t).drop n).enumFrom (cn * n + n)) with
          | error e' =>
            rw [h₂] at hk
            cases hk
          | ok k₂ =>
            rw [h₂] at hk
            cases hk
            have := (ih ((x :: t).drop n) (cn + 1) (writeKept hdrRec acc k₁) hdroplen).2 k₂
            rw [← hmul] at this
            have h3 := this h₂
            rw [writeKept_append] at h3
            exact h3

/-- The chunked deduplication engine agrees with its flat form: same
outcome, and on success the same output file, for every chunk size. -/
theorem removeDuplicates_eq_flat {n : ℕ} (hn : 0 < n) (inputF : Option CsvFile)
    (cols : List Str) :
    (∀ e, flatDedup inputF cols = .error e →
      (removeDuplicatesAcrossChunks inputF cols n).1 = .error e) ∧
    (∀ o, flatDedup inputF cols = .ok o →
      removeDuplicatesAcrossChunks inputF cols n = (.ok (), o)) := by
  match inputF with
  | none =>
    constructor
    · intro e he
      simp only [flatDedup] at he
      cases he
      rfl
    · intro o ho
      simp only [flatDedup] at ho
      cases ho
  | some f =>
    match hrec : f.records with
    | [] =>
      constructor
      · intro e he
        simp only [flatDedup, hrec] at he
        cases he
        simp [removeDuplicatesAcrossChunks, hrec]
      · intro o ho
        simp only [flatDedup, hrec] at ho
        cases ho
    | hdrRec :: dataRecs =>
      have hfo := pass1_bridge (makeKey cols (headerNames hdrRec)) hn
        (materializeRows 1 dataRecs).length (materializeRows 1 dataRecs) 0 [] le_rfl
      simp only [Nat.zero_mul, List.map_nil] at hfo
      have hp2 := pass2_bridge (makeKey cols (headerNames hdrRec)) hn
        (pass1Flat (makeKey cols (headerNames hdrRec))
          ((materializeRows 1 dataRecs).enumFrom 0) [])
        ((headerNames hdrRec).map RawCell.str)
        (materializeRows 2 dataRecs).length (materializeRows 2 dataRecs) 0 none le_rfl
      simp only [Nat.zero_mul] at hp2
      constructor
      · intro e he
        simp only [flatDedup, hrec] at he
        simp only [removeDuplicatesAcrossChunks, hrec]
        rw [hfo]
        cases hk : flatKept (makeKey cols (headerNames hdrRec))
            (pass1Flat (makeKey cols (headerNames hdrRec))
              ((materializeRows 1 dataRecs).enumFrom 0) [])
            ((materializeRows 2 dataRecs).enumFrom 0) with
        | error e' =>
          rw [hk] at he
          cases he
          exact hp2.1 e hk
        | ok kept =>
          rw [hk] at he
          cases he
      · intro o ho
        simp only [flatDedup, hrec] at ho
        simp only [removeDuplicatesAcrossChunks, hrec]
        rw [hfo]
        cases hk : flatKept (makeKey cols (headerNames hdrRec))
            (pass1Flat (makeKey cols (headerNames hdrRec))
              ((materializeRows 1 dataRecs).enumFrom 0) [])
            ((materializeRows 2 dataRecs).enumFrom 0) with
        | error e' =>
          rw [hk] at ho
          cases ho
        | ok kept =>
          rw [hk] at ho
          cases ho
          rw [hp2.2 kept hk]
          simp [writeKept]

/-! ### First-occurrence semantics of the flat passes -/

theorem alookup_isSome_iff {β : Type} (k : List PyVal) (l : List (List PyVal × β)) :
    (alookup k l).isSome = true ↔ ∃ p ∈ l, keyEq k p.1 = true := by
  induction l with
  | nil => simp [alookup]
  | cons p t ih =>
    rw [alookup]
    by_cases h : keyEq k p.1 = true
    · rw [if_pos h]
      exact ⟨fun _ => ⟨p, List.mem_cons.mpr (Or.inl rfl), h⟩, fun _ => rfl⟩
    · rw [if_neg h, ih]
      constructor
      · intro ⟨q, hq, hk⟩
        exact ⟨q, List.mem_cons.mpr (Or.inr hq), hk⟩
      · intro ⟨q, hq, hk⟩
        rcases List.mem_cons.mp hq with rfl | hq'
        · exact absurd hk h
        · exact ⟨q, hq', hk⟩

theorem pass1Flat_alookup (keyOf : List PyVal → List PyVal) (k : List PyVal) :
    ∀ (l : List (ℕ × List PyVal)) (acc : List (List PyVal × ℕ)),
      alookup k (pass1Flat keyOf l acc) =
        (alookup k acc).or ((l.find? fun p => keyEq k (keyOf p.2)).map Prod.fst) := by
  intro l
  induction l with
  | nil => intro acc; simp [pass1Flat]
  | cons p t ih =>
    intro acc
    rw [pass1Flat]
    by_cases hs : (alookup (keyOf p.2) acc).isSome = true
    · rw [if_pos hs, ih]
      by_cases hkp : keyEq k (keyOf p.2) = true
      · have hsk : (alookup k acc).isSome = true := by
          obtain ⟨q, hq, hq2⟩ := (alookup_isSome_iff (keyOf p.2) acc).mp hs
          exact (alookup_isSome_iff k acc).mpr ⟨q, hq, keyEq_trans hkp hq2⟩
        obtain ⟨v, hv⟩ := Option.isSome_iff_exists.mp hsk
        rw [hv]
        simp
      · rw [List.find?_cons_of_neg _ (by simpa using hkp)]
    · rw [if_neg hs, ih]
      rw [alookup_append]
      by_cases hkp : keyEq k (keyOf p.2) = true
      · rw [List.find?_cons_of_pos _ (by simpa using hkp)]
        have h1 : alookup k [(keyOf p.2, p.1)] = some p.1 := by
          simp [alookup, hkp]
        rw [h1]
        have hknone : alookup k acc = none := by
          cases hl : alookup k acc with
          | none => rfl
          | some v =>
            exfalso
            have hsk : (alookup k acc).isSome = true := by rw [hl]; rfl
            obtain ⟨q, hq, hq2⟩ := (alookup_isSome_iff k acc).mp hsk
            have : (alookup (keyOf p.2) acc).isSome = true :=
              (alookup_isSome_iff (keyOf p.2) acc).mpr ⟨q, hq, keyEq_trans (keyEq_symm hkp) hq2⟩
            exact hs this
        rw [hknone]
        cases hfind : t.find? fun q => keyEq k (keyOf q.2) <;> simp
      · rw [List.find?_cons_of_neg _ (by simpa using hkp)]
        have h1 : alookup k [(keyOf p.2, p.1)] = none := by
          simp [alookup, hkp]
        rw [h1, Option.or_none]

theorem find?_enumFrom_fst (f : α → Bool) :
    ∀ (l : List α) (j : ℕ),
      ((l.enumFrom j).find? fun p => f p.2).map Prod.fst = l.findIdx? f j := by
  intro l
  induction l with
  | nil => intro j; simp
  | cons x t ih =>
    intro j
    rw [List.enumFrom_cons, List.findIdx?_cons]
    by_cases h : f x = true
    · rw [List.find?_cons_of_pos _ (by simpa using h), if_pos h]
      rfl
    · rw [List.find?_cons_of_neg _ (by simpa using h), if_neg h]
      exact ih (j + 1)

theorem findIdx?_enumFrom_snd (f : α → Bool) :
    ∀ (l : List α) (j i : ℕ),
      (l.enumFrom j).findIdx? (fun p => f p.2) i = l.findIdx? f i := by
  intro l
  induction l with
  | nil => intro j i; simp
  | cons x t ih =>
    intro j i
    rw [List.enumFrom_cons, List.findIdx?_cons, List.findIdx?_cons]
    by_cases h : f x = true
    · rw [if_pos h, if_pos h]
    · rw [if_neg h, if_neg h]
      exact ih (j + 1) (i + 1)

theorem flatKept_eq_ok (keyOf : List PyVal → List PyVal)
    (fo : List (List PyVal × ℕ)) :
    ∀ l : List (ℕ × List PyVal),
      (∀ p ∈ l, (alookup (keyOf p.2) fo).isSome = true) →
      flatKept keyOf fo l =
        .ok ((l.filter fun p => alookup (keyOf p.2) fo == some p.1).map Prod.snd) := by
  intro l
  induction l with
  | nil => intro _; rfl
  | cons p t ih =>
    intro hall
    have hp := hall p (List.mem_cons.mpr (Or.inl rfl))
    obtain ⟨i₀, hi₀⟩ := Option.isSome_iff_exists.mp hp
    rw [flatKept]
    simp only [hi₀, ih fun q hq => hall q (List.mem_cons.mpr (Or.inr hq))]
    rw [List.filter_cons]
    by_cases h : p.1 = i₀
    · subst h
      rw [if_pos rfl, if_pos (show (alookup (keyOf p.2) fo == some p.1) = true by
        simp [hi₀])]
      rw [List.map_cons]
    · rw [if_neg h, if_neg (show ¬(alookup (keyOf p.2) fo == some p.1) = true by
        simp only [hi₀]
        simp
        omega)]

/-- Value injection of a non-missing cell (the `missing` case is arbitrary
and never reached under `keyCellsPresent`). -/
def cellVal : RawCell → PyVal
  | .str s => .str s
  | .num q => .num q
  | .missing => .nan 0

/-- Every data record has a non-missing cell in every configured
deduplication column that is present in the header (in particular the
record is long enough to reach that column). -/
def keyCellsPresent (cols hdr : List Str) (recs : List (List RawCell)) : Prop :=
  ∀ rec ∈ recs, ∀ c ∈ cols, c ∈ hdr →
    rec.getD (hdr.indexOf c) RawCell.missing ≠ RawCell.missing

instance (cols hdr : List Str) (recs : List (List RawCell)) :
    Decidable (keyCellsPresent cols hdr recs) := by
  unfold keyCellsPresent
  infer_instance

/-- The Deduplication Key of the spec's data model: the tuple of the
record's values in the configured columns, in configured order, restricted
to the columns present in the header. -/
def specKey (cols hdr : List Str) (rec : List RawCell) : List RawCell :=
  (cols.filter fun c => hdr.contains c).map fun c =>
    rec.getD (hdr.indexOf c) RawCell.missing

theorem specKey_not_missing {cols hdr : List Str} {rec : List RawCell}
    (hp : ∀ c ∈ cols, c ∈ hdr → rec.getD (hdr.indexOf c) RawCell.missing ≠ RawCell.missing) :
    ∀ v ∈ specKey cols hdr rec, v ≠ RawCell.missing := by
  intro v hv
  obtain ⟨c, hc, rfl⟩ := List.mem_map.mp hv
  have hcf := List.mem_filter.mp hc
  have hmem : c ∈ hdr := by
    have := hcf.2
    simpa using this
  exact hp c hcf.1 hmem

theorem materializeRec_length (p i : ℕ) (rec : List RawCell) :
    (materializeRec p i rec).length = rec.length := by
  simp [materializeRec]

theorem materializeRec_getElem? (p i : ℕ) (rec : List RawCell) (j : ℕ) :
    (materializeRec p i rec)[j]? = (rec[j]?).map fun c => materializeCell p i j c := by
  unfold materializeRec
  rw [List.getElem?_map, List.getElem?_enumFrom]
  cases rec[j]? <;> simp

/-- Under `keyCellsPresent`, the key the source computes for a materialized
record is the value image of the spec-level key — independent of the read
pass and of the record's position. -/
theorem makeKey_materializeRec {cols hdr : List Str} {rec : List RawCell}
    (hp : ∀ c ∈ cols, c ∈ hdr → rec.getD (hdr.indexOf c) RawCell.missing ≠ RawCell.missing)
    (p i : ℕ) :
    makeKey cols hdr (materializeRec p i rec) = (specKey cols hdr rec).map cellVal := by
  unfold makeKey specKey
  rw [List.map_map]
  refine List.map_congr_left ?_
  intro c hc
  have hcf := List.mem_filter.mp hc
  have hmem : c ∈ hdr := by
    have := hcf.2
    simpa using this
  have hne := hp c hcf.1 hmem
  have hidx : hdr.indexOf c < rec.length := by
    by_contra hge
    rw [not_lt] at hge
    apply hne
    rw [List.getD_eq_getElem?_getD, List.getElem?_eq_none hge]
    rfl
  have hgd : rec.getD (hdr.indexOf c) RawCell.missing = rec.get ⟨hdr.indexOf c, hidx⟩ := by
    rw [List.getD_eq_getElem?_getD, List.getElem?_eq_getElem hidx]
    rfl
  have hmid : (materializeRec p i rec).getD (hdr.indexOf c) (PyVal.nan 0) =
      materializeCell p i (hdr.indexOf c) (rec.get ⟨hdr.indexOf c, hidx⟩) := by
    rw [List.getD_eq_getElem?_getD, materializeRec_getElem?,
      List.getElem?_eq_getElem hidx]
    rfl
  show (materializeRec p i rec).getD (hdr.indexOf c) (PyVal.nan 0) = _
  rw [hmid]
  simp only [Function.comp_apply, hgd]
  have : rec.get ⟨hdr.indexOf c, hidx⟩ ≠ RawCell.missing := by
    rw [← hgd]; exact hne
  cases hcell : rec.get ⟨hdr.indexOf c, hidx⟩ with
  | str s => rfl
  | num q => rfl
  | missing => exact absurd hcell this

/-- On lists of non-missing cells, Python tuple equality of the value
images coincides with structural equality of the raw keys. -/
theorem keyEq_map_cellVal :
    ∀ (s₁ s₂ : List RawCell), (∀ v ∈ s₁, v ≠ RawCell.missing) →
      (∀ v ∈ s₂, v ≠ RawCell.missing) →
      (keyEq (s₁.map cellVal) (s₂.map cellVal) = true ↔ s₁ = s₂) := by
  intro s₁
  induction s₁ with
  | nil =>
    intro s₂ _ _
    cases s₂ with
    | nil => simp [keyEq]
    | cons b u => simp [keyEq]
  | cons a t ih =>
    intro s₂ h₁ h₂
    cases s₂ with
    | nil => simp [keyEq]
    | cons b u =>
      rw [List.map_cons, List.map_cons]
      rw [show (keyEq (cellVal a :: t.map cellVal) (cellVal b :: u.map cellVal) = true ↔
          (pyMemEq (cellVal a) (cellVal b) = true ∧
            keyEq (t.map cellVal) (u.map cellVal) = true)) from keyEq_cons]
      have ha := h₁ a (List.mem_cons.mpr (Or.inl rfl))
      have hb := h₂ b (List.mem_cons.mpr (Or.inl rfl))
      have hhd : pyMemEq (cellVal a) (cellVal b) = true ↔ a = b := by
        cases a <;> cases b <;>
          simp_all [cellVal, pyMemEq, pyEq]
      rw [hhd, ih u (fun v hv => h₁ v (List.mem_cons.mpr (Or.inr hv)))
        (fun v hv => h₂ v (List.mem_cons.mpr (Or.inr hv)))]
      constructor
      · intro ⟨hab, htu⟩; rw [hab, htu]
      · intro h; injection h with h1 h2; exact ⟨h1, h2⟩

theorem findIdx?_congr (f g : α → Bool) :
    ∀ (l : List α) (i : ℕ), (∀ x ∈ l, f x = g x) → l.findIdx? f i = l.findIdx? g i := by
  intro l
  induction l with
  | nil => intro i _; rfl
  | cons x t ih =>
    intro i h
    rw [List.findIdx?_cons, List.findIdx?_cons,
      h x (List.mem_cons.mpr (Or.inl rfl))]
    by_cases hg : g x = true
    · rw [if_pos hg, if_pos hg]
    · rw [if_neg hg, if_neg hg]
      exact ih (i + 1) fun y hy => h y (List.mem_cons.mpr (Or.inr hy))

theorem snd_mem_of_mem_enumFrom {l : List α} {j : ℕ} {p : ℕ × α}
    (h : p ∈ l.enumFrom j) : p.2 ∈ l := by
  have hmap := List.enumFrom_map_snd j l
  rw [← hmap]
  exact List.mem_map_of_mem _ h

theorem enumFrom_map_enum (f : ℕ × α → β) :
    ∀ (l : List α) (j : ℕ),
      ((l.enumFrom j).map f).enumFrom j = (l.enumFrom j).map fun p => (p.1, f p) := by
  intro l
  induction l with
  | nil => intro j; rfl
  | cons x t ih =>
    intro j
    rw [List.enumFrom_cons, List.map_cons, List.enumFrom_cons, List.map_cons, ih (j + 1)]

/-- Spec-worded deduplication: a row of the file is retained iff it is the
first row (in file order) carrying its Deduplication Key; retained rows
keep their file order. -/
def keepFirstOccurrences (keyOf : List RawCell → List RawCell)
    (recs : List (List RawCell)) : List (List RawCell) :=
  ((recs.enumFrom 0).filter fun p =>
    recs.findIdx? (fun r => keyOf p.2 == keyOf r) 0 == some p.1).map Prod.snd

/-- Under `keyCellsPresent` the flat deduplication engine succeeds and its
output is the header line followed by exactly the spec-level
first-occurrence rows of the artifact. -/
theorem flatDedup_of_present (cols : List Str) (hdrRec : List RawCell)
    (dataRecs : List (List RawCell))
    (hp : keyCellsPresent cols (headerNames hdrRec) dataRecs) :
    flatDedup (some ⟨hdrRec :: dataRecs⟩) cols =
      .ok (if dataRecs.isEmpty then none
        else some ⟨((headerNames hdrRec).map RawCell.str) ::
          keepFirstOccurrences (specKey cols (headerNames hdrRec)) dataRecs⟩) := by
  have hrows₁ : (materializeRows 1 dataRecs).enumFrom 0 =
      (dataRecs.enumFrom 0).map fun p => (p.1, materializeRec 1 p.1 p.2) :=
    enumFrom_map_enum _ dataRecs 0
  have hrows₂ : (materializeRows 2 dataRecs).enumFrom 0 =
      (dataRecs.enumFrom 0).map fun p => (p.1, materializeRec 2 p.1 p.2) :=
    enumFrom_map_enum _ dataRecs 0
  set H := headerNames hdrRec with hHdef
  set S := specKey cols H with hSdef
  -- the first-occurrence index recorded for any record's key
  have hlook : ∀ rec ∈ dataRecs, ∀ q : ℕ,
      alookup ((S rec).map cellVal)
        (pass1Flat (makeKey cols H) ((materializeRows 1 dataRecs).enumFrom 0) []) =
      dataRecs.findIdx? (fun r => S rec == S r) 0 := by
    intro rec hrec q
    rw [pass1Flat_alookup]
    show Option.or none _ = _
    rw [Option.none_or]
    rw [find?_enumFrom_fst (fun r => keyEq ((S rec).map cellVal) (makeKey cols H r))
      (materializeRows 1 dataRecs) 0]
    show (materializeRows 1 dataRecs).findIdx? _ 0 = _
    unfold materializeRows
    rw [List.findIdx?_map]
    rw [findIdx?_congr _ (fun p : ℕ × List RawCell => S rec == S p.2)
      (dataRecs.enumFrom 0) 0 ?_]
    · exact findIdx?_enumFrom_snd (fun r => S rec == S r) dataRecs 0 0
    · intro q hq
      have hq2 : q.2 ∈ dataRecs := snd_mem_of_mem_enumFrom hq
      show keyEq ((S rec).map cellVal) (makeKey cols H (materializeRec 1 q.1 q.2)) = _
      rw [makeKey_materializeRec (fun c hc hch => hp q.2 hq2 c hc hch) 1 q.1]
      have hiff := keyEq_map_cellVal (S rec) (S q.2)
        (specKey_not_missing fun c hc hch => hp rec hrec c hc hch)
        (specKey_not_missing fun c hc hch => hp q.2 hq2 c hc hch)
      rw [Bool.eq_iff_iff]
      rw [hiff]
      rw [show ((S rec == S q.2) = true ↔ S rec = S q.2) from beq_iff_eq]
  -- every pass-2 lookup succeeds
  have hall : ∀ p ∈ (materializeRows 2 dataRecs).enumFrom 0,
      (alookup (makeKey cols H p.2)
        (pass1Flat (makeKey cols H) ((materializeRows 1 dataRecs).enumFrom 0) [])).isSome
        = true := by
    intro p hpmem
    rw [hrows₂] at hpmem
    obtain ⟨q, hq, rfl⟩ := List.mem_map.mp hpmem
    have hq2 : q.2 ∈ dataRecs := snd_mem_of_mem_enumFrom hq
    show (alookup (makeKey cols H (materializeRec 2 q.1 q.2)) _).isSome = true
    rw [makeKey_materializeRec (fun c hc hch => hp q.2 hq2 c hc hch) 2 q.1]
    rw [hlook q.2 hq2 0]
    rw [List.findIdx?_isSome]
    rw [List.any_eq_true]
    exact ⟨q.2, hq2, beq_self_eq_true (S q.2)⟩
  -- the engine returns the filtered rows
  unfold flatDedup
  simp only
  rw [flatKept_eq_ok _ _ _ hall]
  simp only
  congr 1
  -- identify the kept rows with the spec-level first occurrences
  have hkept : (((materializeRows 2 dataRecs).enumFrom 0).filter fun p =>
        alookup (makeKey cols H p.2)
          (pass1Flat (makeKey cols H) ((materializeRows 1 dataRecs).enumFrom 0) [])
          == some p.1).map Prod.snd =
      ((dataRecs.enumFrom 0).filter fun p =>
        dataRecs.findIdx? (fun r => S p.2 == S r) 0 == some p.1).map
        fun p => materializeRec 2 p.1 p.2 := by
    rw [hrows₂, List.filter_map]
    rw [List.map_map]
    congr 1
    refine List.filter_congr ?_
    intro q hq
    have hq2 : q.2 ∈ dataRecs := snd_mem_of_mem_enumFrom hq
    show (alookup (makeKey cols H (materializeRec 2 q.1 q.2)) _ == some q.1) = _
    rw [makeKey_materializeRec (fun c hc hch => hp q.2 hq2 c hc hch) 2 q.1]
    rw [hlook q.2 hq2 0]
  rw [hkept]
  have hunmat : (((dataRecs.enumFrom 0).filter fun p =>
        dataRecs.findIdx? (fun r => S p.2 == S r) 0 == some p.1).map
        fun p => materializeRec 2 p.1 p.2).map unmaterializeRow =
      keepFirstOccurrences S dataRecs := by
    rw [List.map_map]
    unfold keepFirstOccurrences
    refine List.map_congr_left ?_
    intro q _
    exact unmaterializeRow_materializeRec 2 q.1 q.2
  have hempty : (((dataRecs.enumFrom 0).filter fun p =>
        dataRecs.findIdx? (fun r => S p.2 == S r) 0 == some p.1).map
        fun p => materializeRec 2 p.1 p.2).isEmpty = dataRecs.isEmpty := by
    cases hd : dataRecs with
    | nil => simp
    | cons rec₀ rest =>
      rw [List.enumFrom_cons, List.filter_cons]
      rw [if_pos ?_]
      · simp
      · show (_ == some 0) = true
        rw [List.findIdx?_cons, if_pos (beq_self_eq_true (S rec₀))]
        rfl
  rw [hempty, hunmat]

/-! ### Properties of the spec-level first-occurrence filter -/

theorem makeKey_filter (cols hdr : List Str) :
    makeKey (cols.filter fun c => hdr.contains c) hdr = makeKey cols hdr := by
  funext row
  unfold makeKey
  rw [List.filter_filter]
  congr 1
  refine List.filter_congr ?_
  intro c _
  exact Bool.and_self _

/-! ### Claim theorems about the Global Deduplication Engine -/

/-- C8: a configured deduplication column absent from the artifact's
schema is silently excluded from every key tuple — the run is identical to
a run configured with only the present columns — and the run completes
without error.  Stated for artifacts whose present key cells are
non-missing. -/
theorem dedup_absent_columns_excluded
    (cols : List Str) (hdrRec : List RawCell) (dataRecs : List (List RawCell))
    (n : ℕ) (hn : 0 < n)
    (hp : keyCellsPresent cols (headerNames hdrRec) dataRecs) :
    removeDuplicatesAcrossChunks (some ⟨hdrRec :: dataRecs⟩) cols n =
      removeDuplicatesAcrossChunks (some ⟨hdrRec :: dataRecs⟩)
        (cols.filter fun c => (headerNames hdrRec).contains c) n ∧
    (removeDuplicatesAcrossChunks (some ⟨hdrRec :: dataRecs⟩) cols n).1 = .ok () := by
  constructor
  · simp only [removeDuplicatesAcrossChunks, makeKey_filter]
  · rw [(removeDuplicates_eq_flat hn _ cols).2 _
      (flatDedup_of_present cols hdrRec dataRecs hp)]

/-- Scenario D: dedup configured on name+height while the artifact only
has name and grade: the key degrades to name alone (the run equals a run
keyed on name), and the run completes, keeping the first row per name. -/
theorem dedup_absent_columns_excluded_witness :
    0 < 2 ∧
    keyCellsPresent [ofS "name", ofS "height"]
      (headerNames [RawCell.str (ofS "name"), RawCell.str (ofS "grade")])
      [[RawCell.str (ofS "Ann"), RawCell.num 11],
       [RawCell.str (ofS "Ann"), RawCell.num 12],
       [RawCell.str (ofS "Bob"), RawCell.num 11]] ∧
    removeDuplicatesAcrossChunks
      (some ⟨[[RawCell.str (ofS "name"), RawCell.str (ofS "grade")],
              [RawCell.str (ofS "Ann"), RawCell.num 11],
              [RawCell.str (ofS "Ann"), RawCell.num 12],
              [RawCell.str (ofS "Bob"), RawCell.num 11]]⟩)
      [ofS "name", ofS "height"] 2 =
      removeDuplicatesAcrossChunks
        (some ⟨[[RawCell.str (ofS "name"), RawCell.str (ofS "grade")],
                [RawCell.str (ofS "Ann"), RawCell.num 11],
                [RawCell.str (ofS "Ann"), RawCell.num 12],
                [RawCell.str (ofS "Bob"), RawCell.num 11]]⟩)
        ([ofS "name", ofS "height"].filter fun c =>
          (headerNames [RawCell.str (ofS "name"), RawCell.str (ofS "grade")]).contains c)
        2 ∧
    (removeDuplicatesAcrossChunks
      (some ⟨[[RawCell.str (ofS "name"), RawCell.str (ofS "grade")],
              [RawCell.str (ofS "Ann"), RawCell.num 11],
              [RawCell.str (ofS "Ann"), RawCell.num 12],
              [RawCell.str (ofS "Bob"), RawCell.num 11]]⟩)
      [ofS "name", ofS "height"] 2).1 = .ok () := by
  have h := dedup_absent_columns_excluded [ofS "name", ofS "height"]
    [RawCell.str (ofS "name"), RawCell.str (ofS "grade")]
    [[RawCell.str (ofS "Ann"), RawCell.num 11],
     [RawCell.str (ofS "Ann"), RawCell.num 12],
     [RawCell.str (ofS "Bob"), RawCell.num 11]] 2 (by decide) (by decide)
  exact ⟨by decide, by decide, h.1, h.2⟩

/-! ### The Row Transformer: model of `data_transformation`

A pandas DataFrame is a header (column labels) plus rows of values.  Each
keyword branch of the source's rules loop becomes one function; a token
(one cleaned rule cell) applies the branches in source order.  Date
parsing (`dateutil` + `strftime`) is the external parameter `parseD`. -/

/-- In-memory DataFrame: column labels and rows. -/
structure DataFrame where
  header : List Str
  rows : List (List PyVal)
deriving DecidableEq

/-- `str(value)` of a scalar. -/
def pyToStr : PyVal → Str
  | .str s => s
  | .num q => ratToStr q
  | .nan _ => ofS "nan"

/-- Model of `format_if_date`: reformat when the text parses as a date
(per the external parser), otherwise return the value unchanged. -/
def formatIfDate (parseD : Str → Str → Option Str) (fmt : Str) (v : PyVal) : PyVal :=
  match parseD (pyToStr v) fmt with
  | some s => .str s
  | none => v

/-- Is the in-memory value a float NaN? (`pd.isna` / `dropna`). -/
def isNanCell : PyVal → Bool
  | .nan _ => true
  | _ => false

/-- Is the on-disk cell missing? (`pd.isna` on the rules table). -/
def isMissingCell : RawCell → Bool
  | .missing => true
  | _ => false

/-- Update column `j` of a row through `f` (`df[col] = df[col].map(...)`,
row view). -/
def mapCell (j : ℕ) (f : PyVal → PyVal) (r : List PyVal) : List PyVal :=
  r.set j (f (r.getD j (PyVal.nan 0)))

/-- `df[name] = <series>`: overwrite the column if the label exists,
otherwise append a new column. -/
def addOrSetCol (name : Str) (df : DataFrame) (f : List PyVal → PyVal) : DataFrame :=
  if df.header.contains name then
    { df with rows := df.rows.map fun r => r.set (df.header.indexOf name) (f r) }
  else
    { header := df.header ++ [name], rows := df.rows.map fun r => r ++ [f r] }

/-- `.str.strip()` of every string cell (the source's step 1 on object
columns). -/
def stripStrCell : PyVal → PyVal
  | .str s => .str (trimStr s)
  | v => v

/-- `df['price'] * df['quantity']` on one row; a non-numeric operand
yields NaN. -/
def pyMulCell : PyVal → PyVal → PyVal
  | .num a, .num b => .num (a * b)
  | _, _ => .nan 0

/-- `pd.to_numeric(..., errors='coerce')` on one value. -/
def toNumericCell : PyVal → PyVal
  | .num q => .num q
  | .str s =>
    match parseNumStr s with
    | some q => .num q
    | none => .nan 0
  | .nan oid => .nan oid

/-- `q.round(2)` (half away from zero at the model level; the claims never
exercise the half-way case). -/
def round2 (q : ℚ) : ℚ := (round (q * 100) : ℤ) / 100

/-- `df[parts].mean(axis=1).round(2)` on one row: the mean of the numeric
values among the selected cells, NaN-skipping; all-NaN yields NaN. -/
def rowMean (hdr parts : List Str) (r : List PyVal) : PyVal :=
  let nums := parts.filterMap fun c =>
    match r.getD (hdr.indexOf c) (PyVal.nan 0) with
    | .num q => some q
    | _ => none
  if nums.isEmpty then PyVal.nan 0
  else .num (round2 (nums.sum / nums.length))

/-- Branch `"Lowercase" in value`:
`df.columns = df.columns.str.lower().str.replace(' ', '_')`. -/
def brLowercase (tok : Str) (df : DataFrame) : DataFrame :=
  if containsSub (ofS "Lowercase") tok then
    { df with header := df.header.map fun h =>
        (lowerStr h).map fun ch => if ch = ' ' then '_' else ch }
  else df

/-- Branch `"DefaultDateFormat" in value`: strip the column labels, then
reformat the `DateOfExam` column when present. -/
def brDateFormat (parseD : Str → Str → Option Str) (tok : Str) (df : DataFrame) :
    DataFrame :=
  if containsSub (ofS "DefaultDateFormat") tok then
    let df := { df with header := df.header.map trimStr }
    let fmt := replaceAll (ofS "DefaultDateFormat") [] tok
    if df.header.contains (ofS "DateOfExam") then
      let j := df.header.indexOf (ofS "DateOfExam")
      { df with rows := df.rows.map (mapCell j (formatIfDate parseD fmt)) }
    else df
  else df

/-- Branch `"RemoveEmptyRows" in value`: `df = df.dropna()`. -/
def brRemoveEmpty (tok : Str) (df : DataFrame) : DataFrame :=
  if containsSub (ofS "RemoveEmptyRows") tok then
    { df with rows := df.rows.filter fun r => !r.any isNanCell }
  else df

/-- Branch `"Average" in value`: strip the column labels, then
`df['AverageMarks'] = df[averageParts].mean(axis=1).round(2)`; selecting an
absent column raises `KeyError`. -/
def brAverage (tok : Str) (df : DataFrame) : Except PyError DataFrame :=
  if containsSub (ofS "Average") tok then
    let parts := splitOnChar '/' (replaceAll (ofS "average") [] (lowerStr tok))
    let df := { df with header := df.header.map trimStr }
    if parts.all fun c => df.header.contains c then
      .ok (addOrSetCol (ofS "AverageMarks") df fun r => rowMean df.header parts r)
    else .error .keyError
  else .ok df

/-- Branch `"Numeric" in value`: coerce each listed column that exists. -/
def brNumeric (tok : Str) (df : DataFrame) : DataFrame :=
  if containsSub (ofS "Numeric") tok then
    let ncols := splitOnChar '/' (replaceAll (ofS "converttonumeric") [] (lowerStr tok))
    { df with rows := ncols.foldl (fun rs c =>
        if df.header.contains c then
          rs.map (mapCell (df.header.indexOf c) toNumericCell)
        else rs) df.rows }
  else df

/-- One cleaned rule cell applied to the DataFrame: the source's keyword
branches in order (the final `RemoveDuplicates` branch only prints, with
or without `skip_deduplication`, so it does not appear). -/
def applyToken (parseD : Str → Str → Option Str) (tok : Str) (df : DataFrame) :
    Except PyError DataFrame :=
  match brAverage tok (brRemoveEmpty tok (brDateFormat parseD tok (brLowercase tok df))) with
  | .error e => .error e
  | .ok df' => .ok (brNumeric tok df')

/-- The rules loop: apply every token in table order, aborting on the
first exception. -/
def applyTokens (parseD : Str → Str → Option Str) :
    List Str → DataFrame → Except PyError DataFrame
  | [], df => .ok df
  | tok :: rest, df =>
    match applyToken parseD tok df with
    | .error e => .error e
    | .ok df' => applyTokens parseD rest df'

/-- The cleaned text of one rules cell: `pd.isna` cells are skipped, others
go through `str(value)`, `strip`, space removal and `\s` removal. -/
def cellToken : RawCell → Option Str
  | .missing => none
  | .str s => some (removeWs s)
  | .num q => some (removeWs (ratToStr q))

/-- All cleaned rule cells, in row-major table order (the first record of
the rules file is its header and is not scanned). -/
def rulesTokens (rules : CsvFile) : List Str :=
  match rules.records with
  | [] => []
  | _ :: dataRecs => dataRecs.flatten.filterMap cellToken

/-- `data.empty` for the rules DataFrame. -/
def rulesEmpty (rules : CsvFile) : Bool :=
  match rules.records with
  | [] => true
  | _ :: dataRecs => dataRecs.isEmpty

/-- `data.isnull().all().all()` for the rules DataFrame. -/
def rulesAllNull (rules : CsvFile) : Bool :=
  match rules.records with
  | [] => true
  | _ :: dataRecs => dataRecs.all fun rec => rec.all isMissingCell

/-- Step 1 of `data_transformation`: strip whitespace from string cells. -/
def preStrip (df : DataFrame) : DataFrame :=
  { df with rows := df.rows.map fun r => r.map stripStrCell }

/-- Step 2 of `data_transformation`:
`df['total_value'] = df['price'] * df['quantity']` when both exist. -/
def preTotalValue (df : DataFrame) : DataFrame :=
  if df.header.contains (ofS "price") && df.header.contains (ofS "quantity") then
    addOrSetCol (ofS "total_value") df fun r =>
      pyMulCell (r.getD (df.header.indexOf (ofS "price")) (PyVal.nan 0))
        (r.getD (df.header.indexOf (ofS "quantity")) (PyVal.nan 0))
  else df

/-- Model of `data_transformation(df, skip_deduplication)`: strip string
cells, derive `total_value`, then re-read the rules — *not* guarded by
try/except, so a rules-read failure propagates — and, unless the rules
table is empty or all-null, run every rule cell through the keyword
branches. -/
def dataTransformation (parseD : Str → Str → Option Str)
    (rulesSrc : Except PyError CsvFile) (df : DataFrame)
    (skipDeduplication : Bool) : Except PyError DataFrame :=
  let df₂ := preTotalValue (preStrip df)
  match rulesSrc with
  | .error e => .error e
  | .ok rules =>
    if rulesEmpty rules || rulesAllNull rules then .ok df₂
    else applyTokens parseD (rulesTokens rules) df₂

/-! ### `get_deduplication_columns` and the Orchestrator -/

/-- The scan of `get_deduplication_columns` over the cleaned rule cells:
the first cell containing `"RemoveDuplicates"` whose lowercased text with
every `"removeduplicates"` removed is nonempty yields the slash-separated,
stripped, nonempty column names; other cells are skipped. -/
def extractDedupCols : List Str → Option (List Str)
  | [] => none
  | v :: t =>
    if containsSub (ofS "RemoveDuplicates") v then
      let r := replaceAll (ofS "removeduplicates") [] (lowerStr v)
      if r.isEmpty then extractDedupCols t
      else some (((splitOnChar '/' r).map trimStr).filter fun c => !c.isEmpty)
    else extractDedupCols t

/-- Model of `get_deduplication_columns()`: any exception while reading
the rules file is caught and yields `None`; an empty or all-null rules
table yields `None`; otherwise the cells are scanned in table order. -/
def getDeduplicationColumns (rulesSrc : Except PyError CsvFile) : Option (List Str) :=
  match rulesSrc with
  | .error _ => none
  | .ok rules =>
    if rulesEmpty rules || rulesAllNull rules then none
    else extractDedupCols (rulesTokens rules)

/-- Truthiness of `dedup_columns` in `process_csv_in_chunks`
(`if dedup_columns:`): a non-`None`, nonempty list. -/
def dedupActive (rulesSrc : Except PyError CsvFile) : Bool :=
  match getDeduplicationColumns rulesSrc with
  | some (_ :: _) => true
  | _ => false

/-- The files the pipeline writes: the final output path and the
intermediate `input + '.temp_transformed.csv'` path. -/
structure PipelineState where
  output : Option CsvFile
  temp : Option CsvFile
deriving DecidableEq

/-- The chunk loop shared by `_process_without_deduplication` and step 1 of
`_process_with_deduplication`: transform each chunk and append it to the
destination; the first chunk opens the file in mode `'w'` and writes a
header iff `write_header`; a transform failure aborts, leaving whatever
was already written. -/
def runChunksWrite (tf : List (List PyVal) → Except PyError DataFrame) (wh : Bool) :
    List (List (List PyVal)) → Option CsvFile → Except PyError Unit × Option CsvFile
  | [], acc => (.ok (), acc)
  | c :: rest, acc =>
    match tf c with
    | .error e => (.error e, acc)
    | .ok df =>
      let recs := df.rows.map unmaterializeRow
      let acc' := match acc with
        | none => some ⟨(if wh then [df.header.map RawCell.str] else []) ++ recs⟩
        | some f => some ⟨f.records ++ recs⟩
      runChunksWrite tf wh rest acc'

/-- Model of `_process_without_deduplication`: read the input in chunks,
transform and append to the output.  Returns the outcome and the output
file written. -/
def processWithoutDeduplication (parseD : Str → Str → Option Str)
    (rulesSrc : Except PyError CsvFile) (inputF : Option CsvFile)
    (n : ℕ) (wh : Bool) : Except PyError Unit × Option CsvFile :=
  match inputF with
  | none => (.error .fileNotFound, none)
  | some f =>
    match f.records with
    | [] => (.error .emptyData, none)
    | hdrRec :: dataRecs =>
      runChunksWrite
        (fun rows => dataTransformation parseD rulesSrc ⟨headerNames hdrRec, rows⟩ false)
        wh (chunksOf n (materializeRows 0 dataRecs)) none

/-- Step 1 of `_process_with_deduplication`: the same chunk loop with
`skip_deduplication=True`, writing the intermediate artifact. -/
def dedupPhase1 (parseD : Str → Str → Option Str)
    (rulesSrc : Except PyError CsvFile) (inputF : Option CsvFile)
    (n : ℕ) (wh : Bool) : Except PyError Unit × Option CsvFile :=
  match inputF with
  | none => (.error .fileNotFound, none)
  | some f =>
    match f.records with
    | [] => (.error .emptyData, none)
    | hdrRec :: dataRecs =>
      runChunksWrite
        (fun rows => dataTransformation parseD rulesSrc ⟨headerNames hdrRec, rows⟩ true)
        wh (chunksOf n (materializeRows 0 dataRecs)) none

/-- Model of `_process_with_deduplication`: on a step-1 failure the
intermediate artifact is deleted and the error propagated; on success the
deduplication engine reads the artifact (stale content survives when step 1
wrote no chunk) and writes the final output; only after its success is the
artifact removed. -/
def processWithDeduplication (parseD : Str → Str → Option Str)
    (rulesSrc : Except PyError CsvFile) (inputF : Option CsvFile)
    (tempPrev : Option CsvFile) (n : ℕ) (wh : Bool) (cols : List Str) :
    Except PyError Unit × PipelineState :=
  match dedupPhase1 parseD rulesSrc inputF n wh with
  | (.error e, _) => (.error e, ⟨none, none⟩)
  | (.ok _, written) =>
    let tempF := match written with
      | some f => some f
      | none => tempPrev
    match removeDuplicatesAcrossChunks tempF cols n with
    | (.error e, out) => (.error e, ⟨out, tempF⟩)
    | (.ok _, out) => (.ok (), ⟨out, none⟩)

/-- Model of `process_csv_in_chunks`: a pre-existing output file is
removed first, before the rules are consulted or the input is touched;
then the mode is chosen by the truthiness of the deduplication column
list. -/
def processCsvInChunks (parseD : Str → Str → Option Str)
    (rulesSrc : Except PyError CsvFile) (inputF : Option CsvFile)
    (st : PipelineState) (n : ℕ) (wh : Bool) : Except PyError Unit × PipelineState :=
  match getDeduplicationColumns rulesSrc with
  | some (c :: cs) =>
    processWithDeduplication parseD rulesSrc inputF st.temp n wh (c :: cs)
  | _ =>
    let r := processWithoutDeduplication parseD rulesSrc inputF n wh
    (r.1, ⟨r.2, st.temp⟩)

/-! ### Uniformity of the Row Transformer

Every branch of `data_transformation` maps the header as a function of
the header alone and the rows pointwise (a map or a row filter): the
transform of a chunk is a `filterMap` of its rows by a function that
depends only on the header and the rules.  This is what makes chunking
invisible. -/

/-- A pure DataFrame transform that factors into a header function plus a
per-row partial map. -/
def RowUniform (T : DataFrame → DataFrame) : Prop :=
  ∀ H : List Str, ∃ (H' : List Str) (g : List PyVal → Option (List PyVal)),
    ∀ rows, T ⟨H, rows⟩ = ⟨H', rows.filterMap g⟩

/-- A fallible DataFrame transform that for each header either fails
identically on every chunk or factors into header function plus per-row
partial map. -/
def TfUniform (T : DataFrame → Except PyError DataFrame) : Prop :=
  ∀ H : List Str, (∃ e, ∀ rows, T ⟨H, rows⟩ = .error e) ∨
    (∃ (H' : List Str) (g : List PyVal → Option (List PyVal)),
      ∀ rows, T ⟨H, rows⟩ = .ok ⟨H', rows.filterMap g⟩)

theorem rowUniform_comp {T₁ T₂ : DataFrame → DataFrame}
    (h₁ : RowUniform T₁) (h₂ : RowUniform T₂) :
    RowUniform fun df => T₂ (T₁ df) := by
  intro H
  obtain ⟨H₁, g₁, hg₁⟩ := h₁ H
  obtain ⟨H₂, g₂, hg₂⟩ := h₂ H₁
  refine ⟨H₂, fun r => (g₁ r).bind g₂, fun rows => ?_⟩
  show T₂ (T₁ ⟨H, rows⟩) = _
  rw [hg₁ rows, hg₂ (rows.filterMap g₁), List.filterMap_filterMap]

theorem filter_eq_filterMap_opt (p : α → Bool) (l : List α) :
    l.filter p = l.filterMap fun a => if p a then some a else none := by
  induction l with
  | nil => rfl
  | cons x t ih =>
    rw [List.filter_cons, List.filterMap_cons]
    by_cases h : p x = true
    · rw [if_pos h, if_pos h, ih]
    · rw [if_neg h, if_neg h, ih]

theorem brLowercase_rowUniform (tok : Str) : RowUniform (brLowercase tok) := by
  intro H
  by_cases h : containsSub (ofS "Lowercase") tok = true
  · refine ⟨H.map fun hd => (lowerStr hd).map fun ch => if ch = ' ' then '_' else ch,
      some, fun rows => ?_⟩
    unfold brLowercase
    rw [if_pos h, List.filterMap_some]
  · refine ⟨H, some, fun rows => ?_⟩
    unfold brLowercase
    rw [if_neg h, List.filterMap_some]

theorem brDateFormat_rowUniform (parseD : Str → Str → Option Str) (tok : Str) :
    RowUniform (brDateFormat parseD tok) := by
  intro H
  by_cases h : containsSub (ofS "DefaultDateFormat") tok = true
  · by_cases hc : (H.map trimStr).contains (ofS "DateOfExam") = true
    · refine ⟨H.map trimStr,
        some ∘ mapCell ((H.map trimStr).indexOf (ofS "DateOfExam"))
          (formatIfDate parseD (replaceAll (ofS "DefaultDateFormat") [] tok)),
        fun rows => ?_⟩
      unfold brDateFormat
      rw [if_pos h]
      dsimp only
      rw [if_pos hc, List.filterMap_eq_map]
    · refine ⟨H.map trimStr, some, fun rows => ?_⟩
      unfold brDateFormat
      rw [if_pos h]
      dsimp only
      rw [if_neg hc, List.filterMap_some]
  · refine ⟨H, some, fun rows => ?_⟩
    unfold brDateFormat
    rw [if_neg h, List.filterMap_some]

theorem brRemoveEmpty_rowUniform (tok : Str) : RowUniform (brRemoveEmpty tok) := by
  intro H
  by_cases h : containsSub (ofS "RemoveEmptyRows") tok = true
  · refine ⟨H, fun r => if !r.any isNanCell then some r else none, fun rows => ?_⟩
    unfold brRemoveEmpty
    rw [if_pos h]
    dsimp only
    rw [filter_eq_filterMap_opt]
  · refine ⟨H, some, fun rows => ?_⟩
    unfold brRemoveEmpty
    rw [if_neg h, List.filterMap_some]

theorem addOrSetCol_factor (name : Str) (H : List Str)
    (f : List PyVal → PyVal) :
    ∃ (H' : List Str) (g : List PyVal → List PyVal),
      ∀ rows, addOrSetCol name ⟨H, rows⟩ f = ⟨H', rows.map g⟩ := by
  by_cases h : H.contains name = true
  · refine ⟨H, fun r => r.set (H.indexOf name) (f r), fun rows => ?_⟩
    unfold addOrSetCol
    rw [if_pos h]
  · refine ⟨H ++ [name], fun r => r ++ [f r], fun rows => ?_⟩
    unfold addOrSetCol
    rw [if_neg h]

theorem brAverage_uniform (tok : Str) : TfUniform (brAverage tok) := by
  intro H
  by_cases h : containsSub (ofS "Average") tok = true
  · by_cases hall : (splitOnChar '/' (replaceAll (ofS "average") [] (lowerStr tok))).all
        (fun c => (H.map trimStr).contains c) = true
    · right
      obtain ⟨H', g, hg⟩ := addOrSetCol_factor (ofS "AverageMarks") (H.map trimStr)
        (fun r => rowMean (H.map trimStr)
          (splitOnChar '/' (replaceAll (ofS "average") [] (lowerStr tok))) r)
      refine ⟨H', some ∘ g, fun rows => ?_⟩
      unfold brAverage
      rw [if_pos h]
      dsimp only
      rw [if_pos hall, hg rows, List.filterMap_eq_map]
    · left
      refine ⟨.keyError, fun rows => ?_⟩
      unfold brAverage
      rw [if_pos h]
      dsimp only
      rw [if_neg hall]
  · right
    refine ⟨H, some, fun rows => ?_⟩
    unfold brAverage
    rw [if_neg h, List.filterMap_some]

theorem brNumeric_fold_exchange (H : List Str) :
    ∀ (ncols : List Str) (rows : List (List PyVal)),
      ncols.foldl (fun rs c =>
        if H.contains c then rs.map (mapCell (H.indexOf c) toNumericCell) else rs) rows =
      rows.map fun r => ncols.foldl (fun r' c =>
        if H.contains c then mapCell (H.indexOf c) toNumericCell r' else r') r := by
  intro ncols
  induction ncols with
  | nil => intro rows; rw [List.foldl_nil]; simp
  | cons c rest ih =>
    intro rows
    rw [List.foldl_cons]
    by_cases hc : H.contains c = true
    · rw [if_pos hc, ih, List.map_map]
      refine List.map_congr_left ?_
      intro r _
      rw [List.foldl_cons, if_pos hc]
      rfl
    · rw [if_neg hc, ih]
      refine List.map_congr_left ?_
      intro r _
      rw [List.foldl_cons, if_neg hc]

theorem brNumeric_rowUniform (tok : Str) : RowUniform (brNumeric tok) := by
  intro H
  by_cases h : containsSub (ofS "Numeric") tok = true
  · refine ⟨H, some ∘ fun r =>
      (splitOnChar '/' (replaceAll (ofS "converttonumeric") [] (lowerStr tok))).foldl
        (fun r' c => if H.contains c then mapCell (H.indexOf c) toNumericCell r' else r') r,
      fun rows => ?_⟩
    unfold brNumeric
    rw [if_pos h]
    dsimp only
    rw [brNumeric_fold_exchange H _ rows, List.filterMap_eq_map]
  · refine ⟨H, some, fun rows => ?_⟩
    unfold brNumeric
    rw [if_neg h, List.filterMap_some]

theorem applyToken_uniform (parseD : Str → Str → Option Str) (tok : Str) :
    TfUniform (applyToken parseD tok) := by
  intro H
  have h₀ := rowUniform_comp
    (rowUniform_comp (brLowercase_rowUniform tok) (brDateFormat_rowUniform parseD tok))
    (brRemoveEmpty_rowUniform tok)
  obtain ⟨H₁, g₁, hg₁⟩ := h₀ H
  rcases brAverage_uniform tok H₁ with ⟨e, he⟩ | ⟨H₂, g₂, hg₂⟩
  · left
    refine ⟨e, fun rows => ?_⟩
    unfold applyToken
    rw [show brRemoveEmpty tok (brDateFormat parseD tok (brLowercase tok ⟨H, rows⟩)) =
      ⟨H₁, rows.filterMap g₁⟩ from hg₁ rows]
    rw [he (rows.filterMap g₁)]
  · obtain ⟨H₃, g₃, hg₃⟩ := brNumeric_rowUniform tok H₂
    right
    refine ⟨H₃, fun r => (g₁ r).bind fun r' => (g₂ r').bind g₃, fun rows => ?_⟩
    unfold applyToken
    rw [show brRemoveEmpty tok (brDateFormat parseD tok (brLowercase tok ⟨H, rows⟩)) =
      ⟨H₁, rows.filterMap g₁⟩ from hg₁ rows]
    rw [hg₂ (rows.filterMap g₁)]
    show Except.ok (brNumeric tok ⟨H₂, (rows.filterMap g₁).filterMap g₂⟩) = _
    rw [hg₃ ((rows.filterMap g₁).filterMap g₂)]
    rw [List.filterMap_filterMap, List.filterMap_filterMap]

theorem applyTokens_uniform (parseD : Str → Str → Option Str) :
    ∀ toks : List Str, TfUniform (applyTokens parseD toks) := by
  intro toks
  induction toks with
  | nil =>
    intro H
    right
    exact ⟨H, some, fun rows => by rw [List.filterMap_some]; rfl⟩
  | cons tok rest ih =>
    intro H
    rcases applyToken_uniform parseD tok H with ⟨e, he⟩ | ⟨H₁, g₁, hg₁⟩
    · left
      refine ⟨e, fun rows => ?_⟩
      rw [applyTokens, he rows]
    · rcases ih H₁ with ⟨e, he⟩ | ⟨H₂, g₂, hg₂⟩
      · left
        refine ⟨e, fun rows => ?_⟩
        rw [applyTokens, hg₁ rows]
        exact he (rows.filterMap g₁)
      · right
        refine ⟨H₂, fun r => (g₁ r).bind g₂, fun rows => ?_⟩
        rw [applyTokens, hg₁ rows]
        show applyTokens parseD rest ⟨H₁, rows.filterMap g₁⟩ = _
        rw [hg₂ (rows.filterMap g₁), List.filterMap_filterMap]

theorem preStrip_rowUniform : RowUniform preStrip := by
  intro H
  refine ⟨H, some ∘ fun r => r.map stripStrCell, fun rows => ?_⟩
  unfold preStrip
  rw [List.filterMap_eq_map]

theorem preTotalValue_rowUniform : RowUniform preTotalValue := by
  intro H
  by_cases h : (H.contains (ofS "price") && H.contains (ofS "quantity")) = true
  · obtain ⟨H', g, hg⟩ := addOrSetCol_factor (ofS "total_value") H
      (fun r => pyMulCell (r.getD (H.indexOf (ofS "price")) (PyVal.nan 0))
        (r.getD (H.indexOf (ofS "quantity")) (PyVal.nan 0)))
    refine ⟨H', some ∘ g, fun rows => ?_⟩
    unfold preTotalValue
    rw [if_pos h, hg rows, List.filterMap_eq_map]
  · refine ⟨H, some, fun rows => ?_⟩
    unfold preTotalValue
    rw [if_neg h, List.filterMap_some]

/-- The whole Row Transformer is uniform: for a fixed header and rules
outcome it either fails identically on every chunk, or factors into a
fixed output header plus a per-row partial map applied to the chunk's
rows. -/
theorem dataTransformation_uniform (parseD : Str → Str → Option Str)
    (rulesSrc : Except PyError CsvFile) (skip : Bool) :
    TfUniform fun df => dataTransformation parseD rulesSrc df skip := by
  intro H
  obtain ⟨H₂, g₀, hg₀⟩ := rowUniform_comp preStrip_rowUniform preTotalValue_rowUniform H
  match rulesSrc with
  | .error e =>
    left
    exact ⟨e, fun rows => rfl⟩
  | .ok rules =>
    by_cases hguard : (rulesEmpty rules || rulesAllNull rules) = true
    · right
      refine ⟨H₂, g₀, fun rows => ?_⟩
      show dataTransformation parseD (.ok rules) ⟨H, rows⟩ skip = _
      unfold dataTransformation
      dsimp only
      rw [show preTotalValue (preStrip ⟨H, rows⟩) = ⟨H₂, rows.filterMap g₀⟩ from hg₀ rows]
      rw [if_pos hguard]
    · rcases applyTokens_uniform parseD (rulesTokens rules) H₂ with ⟨e, he⟩ | ⟨H₃, g₃, hg₃⟩
      · left
        refine ⟨e, fun rows => ?_⟩
        show dataTransformation parseD (.ok rules) ⟨H, rows⟩ skip = _
        unfold dataTransformation
        dsimp only
        rw [show preTotalValue (preStrip ⟨H, rows⟩) = ⟨H₂, rows.filterMap g₀⟩ from hg₀ rows]
        rw [if_neg hguard]
        exact he (rows.filterMap g₀)
      · right
        refine ⟨H₃, fun r => (g₀ r).bind g₃, fun rows => ?_⟩
        show dataTransformation parseD (.ok rules) ⟨H, rows⟩ skip = _
        unfold dataTransformation
        dsimp only
        rw [show preTotalValue (preStrip ⟨H, rows⟩) = ⟨H₂, rows.filterMap g₀⟩ from hg₀ rows]
        rw [if_neg hguard, hg₃ (rows.filterMap g₀), List.filterMap_filterMap]

/-! ### Flat (single-scan) form of the pipeline -/

/-- Flat form of the transform-and-write phase: transform the whole input
once and write it in one go (no file is created when there are no data
rows, matching the chunk loop, which then never writes). -/
def flatTransformPhase (parseD : Str → Str → Option Str)
    (rulesSrc : Except PyError CsvFile) (hdrRec : List RawCell)
    (dataRecs : List (List RawCell)) (wh skip : Bool) :
    Except PyError Unit × Option CsvFile :=
  if dataRecs.isEmpty then (.ok (), none)
  else
    match dataTransformation parseD rulesSrc
        ⟨headerNames hdrRec, materializeRows 0 dataRecs⟩ skip with
    | .error e => (.error e, none)
    | .ok df => (.ok (), some ⟨(if wh then [df.header.map RawCell.str] else []) ++
        df.rows.map unmaterializeRow⟩)

theorem runChunksWrite_error {tf : List (List PyVal) → Except PyError DataFrame}
    {e : PyError} (he : ∀ rows, tf rows = .error e) (wh : Bool)
    (c : List (List PyVal)) (rest : List (List (List PyVal))) (acc : Option CsvFile) :
    runChunksWrite tf wh (c :: rest) acc = (.error e, acc) := by
  rw [runChunksWrite, he c]

theorem runChunksWrite_ok_some {tf : List (List PyVal) → Except PyError DataFrame}
    {H' : List Str} {f : List PyVal → Option (List PyVal)}
    (hok : ∀ rows, tf rows = .ok ⟨H', rows.filterMap f⟩) (wh : Bool) :
    ∀ (chunks : List (List (List PyVal))) (g : CsvFile),
      runChunksWrite tf wh chunks (some g) =
        (.ok (), some ⟨g.records ++ (chunks.flatten.filterMap f).map unmaterializeRow⟩) := by
  intro chunks
  induction chunks with
  | nil =>
    intro g
    rw [runChunksWrite]
    simp
  | cons c rest ih =>
    intro g
    rw [runChunksWrite, hok c]
    dsimp only
    rw [ih ⟨g.records ++ (c.filterMap f).map unmaterializeRow⟩]
    rw [List.flatten_cons, List.filterMap_append, List.map_append, List.append_assoc]

theorem runChunksWrite_ok_none {tf : List (List PyVal) → Except PyError DataFrame}
    {H' : List Str} {f : List PyVal → Option (List PyVal)}
    (hok : ∀ rows, tf rows = .ok ⟨H', rows.filterMap f⟩) (wh : Bool)
    (c : List (List PyVal)) (rest : List (List (List PyVal))) :
    runChunksWrite tf wh (c :: rest) none =
      (.ok (), some ⟨(if wh then [H'.map RawCell.str] else []) ++
        ((c :: rest).flatten.filterMap f).map unmaterializeRow⟩) := by
  rw [runChunksWrite, hok c]
  dsimp only
  rw [runChunksWrite_ok_some hok wh rest ⟨(if wh then [H'.map RawCell.str] else []) ++
    (c.filterMap f).map unmaterializeRow⟩]
  rw [List.flatten_cons, List.filterMap_append, List.map_append, List.append_assoc]

theorem chunksOf_eq_nil_iff (n : ℕ) (l : List α) : chunksOf n l = [] ↔ l = [] := by
  cases l with
  | nil => simp [chunksOf_nil]
  | cons x t =>
    constructor
    · intro h; exact absurd h (chunksOf_ne_nil_cons n x t)
    · intro h; cases h

theorem materializeRows_length (p : ℕ) (recs : List (List RawCell)) :
    (materializeRows p recs).length = recs.length := by
  simp [materializeRows]

theorem flatTransformPhase_cons (parseD : Str → Str → Option Str)
    (rulesSrc : Except PyError CsvFile) (hdrRec r : List RawCell)
    (t : List (List RawCell)) (wh skip : Bool) :
    flatTransformPhase parseD rulesSrc hdrRec (r :: t) wh skip =
      match dataTransformation parseD rulesSrc
          ⟨headerNames hdrRec, materializeRows 0 (r :: t)⟩ skip with
      | .error e => (.error e, none)
      | .ok df => (.ok (), some ⟨(if wh then [df.header.map RawCell.str] else []) ++
          df.rows.map unmaterializeRow⟩) := by
  unfold flatTransformPhase
  rw [if_neg (show ¬((r :: t).isEmpty = true) from by simp)]

/-- The chunk loop equals the flat transform-and-write, for every chunk
size: chunking is invisible to the artifact written. -/
theorem chunkedTransformWrite_eq_flat (parseD : Str → Str → Option Str)
    (rulesSrc : Except PyError CsvFile) (hdrRec : List RawCell)
    (dataRecs : List (List RawCell)) {n : ℕ} (hn : 0 < n) (wh skip : Bool) :
    runChunksWrite
      (fun rows => dataTransformation parseD rulesSrc ⟨headerNames hdrRec, rows⟩ skip)
      wh (chunksOf n (materializeRows 0 dataRecs)) none =
    flatTransformPhase parseD rulesSrc hdrRec dataRecs wh skip := by
  rcases dataTransformation_uniform parseD rulesSrc skip (headerNames hdrRec) with
    ⟨e, he⟩ | ⟨H', f, hf⟩
  · have he' : ∀ rows, dataTransformation parseD rulesSrc
        ⟨headerNames hdrRec, rows⟩ skip = .error e := he
    cases hrecs : dataRecs with
    | nil =>
      rw [show materializeRows 0 ([] : List (List RawCell)) = [] from rfl, chunksOf_nil]
      rfl
    | cons r t =>
      have hne : materializeRows 0 (r :: t) ≠ [] := by
        intro hcon
        have := materializeRows_length 0 (r :: t)
        rw [hcon] at this
        simp at this
      cases hch : chunksOf n (materializeRows 0 (r :: t)) with
      | nil => exact absurd ((chunksOf_eq_nil_iff n _).mp hch) hne
      | cons c rest =>
        rw [runChunksWrite_error he wh c rest none, flatTransformPhase_cons]
        rw [he' (materializeRows 0 (r :: t))]
  · have hf' : ∀ rows, dataTransformation parseD rulesSrc
        ⟨headerNames hdrRec, rows⟩ skip = .ok ⟨H', rows.filterMap f⟩ := hf
    cases hrecs : dataRecs with
    | nil =>
      rw [show materializeRows 0 ([] : List (List RawCell)) = [] from rfl, chunksOf_nil]
      rfl
    | cons r t =>
      have hne : materializeRows 0 (r :: t) ≠ [] := by
        intro hcon
        have := materializeRows_length 0 (r :: t)
        rw [hcon] at this
        simp at this
      cases hch : chunksOf n (materializeRows 0 (r :: t)) with
      | nil => exact absurd ((chunksOf_eq_nil_iff n _).mp hch) hne
      | cons c rest =>
        rw [runChunksWrite_ok_none hf wh c rest, flatTransformPhase_cons]
        rw [hf' (materializeRows 0 (r :: t))]
        rw [← hch, flatten_chunksOf]

/-- Flat form of the whole orchestrated pipeline (the output recorded for
a failing deduplication pass is `none`; the bridge only transfers final
states of successful runs). -/
def flatProcess (parseD : Str → Str → Option Str)
    (rulesSrc : Except PyError CsvFile) (inputF : Option CsvFile)
    (st : PipelineState) (wh : Bool) : Except PyError Unit × PipelineState :=
  match getDeduplicationColumns rulesSrc with
  | some (c :: cs) =>
    (match inputF with
     | none => (.error .fileNotFound, ⟨none, none⟩)
     | some f =>
       match f.records with
       | [] => (.error .emptyData, ⟨none, none⟩)
       | hdrRec :: dataRecs =>
         match flatTransformPhase parseD rulesSrc hdrRec dataRecs wh true with
         | (.error e, _) => (.error e, ⟨none, none⟩)
         | (.ok _, written) =>
           let tempF := match written with
             | some f' => some f'
             | none => st.temp
           match flatDedup tempF (c :: cs) with
           | .error e => (.error e, ⟨none, tempF⟩)
           | .ok out => (.ok (), ⟨out, none⟩))
  | _ =>
    (match inputF with
     | none => (.error .fileNotFound, ⟨none, st.temp⟩)
     | some f =>
       match f.records with
       | [] => (.error .emptyData, ⟨none, st.temp⟩)
       | hdrRec :: dataRecs =>
         let r := flatTransformPhase parseD rulesSrc hdrRec dataRecs wh false
         (r.1, ⟨r.2, st.temp⟩))

theorem processWithout_eq_flat (parseD : Str → Str → Option Str)
    (rulesSrc : Except PyError CsvFile) (inputF : Option CsvFile)
    {n : ℕ} (hn : 0 < n) (wh : Bool) :
    processWithoutDeduplication parseD rulesSrc inputF n wh =
      match inputF with
      | none => (.error .fileNotFound, none)
      | some f =>
        match f.records with
        | [] => (.error .emptyData, none)
        | hdrRec :: dataRecs => flatTransformPhase parseD rulesSrc hdrRec dataRecs wh false := by
  unfold processWithoutDeduplication
  cases inputF with
  | none => rfl
  | some f =>
    dsimp only
    cases hrec : f.records with
    | nil => rfl
    | cons hdrRec dataRecs =>
      exact chunkedTransformWrite_eq_flat parseD rulesSrc hdrRec dataRecs hn wh false

theorem dedupPhase1_eq_flat (parseD : Str → Str → Option Str)
    (rulesSrc : Except PyError CsvFile) (inputF : Option CsvFile)
    {n : ℕ} (hn : 0 < n) (wh : Bool) :
    dedupPhase1 parseD rulesSrc inputF n wh =
      match inputF with
      | none => (.error .fileNotFound, none)
      | some f =>
        match f.records with
        | [] => (.error .emptyData, none)
        | hdrRec :: dataRecs => flatTransformPhase parseD rulesSrc hdrRec dataRecs wh true := by
  unfold dedupPhase1
  cases inputF with
  | none => rfl
  | some f =>
    dsimp only
    cases hrec : f.records with
    | nil => rfl
    | cons hdrRec dataRecs =>
      exact chunkedTransformWrite_eq_flat parseD rulesSrc hdrRec dataRecs hn wh true

theorem dedupTailBridge (tempF : Option CsvFile) (cols : List Str) {n : ℕ} (hn : 0 < n) :
    ((match removeDuplicatesAcrossChunks tempF cols n with
      | (.error e, out) => ((.error e : Except PyError Unit), (⟨out, tempF⟩ : PipelineState))
      | (.ok _, out) => (.ok (), ⟨out, none⟩)).1 =
     (match flatDedup tempF cols with
      | .error e => ((.error e : Except PyError Unit), (⟨none, tempF⟩ : PipelineState))
      | .ok out => (.ok (), ⟨out, none⟩)).1) ∧
    ((match flatDedup tempF cols with
      | .error e => ((.error e : Except PyError Unit), (⟨none, tempF⟩ : PipelineState))
      | .ok out => (.ok (), ⟨out, none⟩)).1 = .ok () →
     (match removeDuplicatesAcrossChunks tempF cols n with
      | (.error e, out) => ((.error e : Except PyError Unit), (⟨out, tempF⟩ : PipelineState))
      | (.ok _, out) => (.ok (), ⟨out, none⟩)) =
     (match flatDedup tempF cols with
      | .error e => ((.error e : Except PyError Unit), (⟨none, tempF⟩ : PipelineState))
      | .ok out => (.ok (), ⟨out, none⟩))) := by
  have hbridge := removeDuplicates_eq_flat hn tempF cols
  cases hfd : flatDedup tempF cols with
  | error e =>
    rw [hfd] at hbridge
    have hres := hbridge.1 e rfl
    clear hbridge
    cases hrd : removeDuplicatesAcrossChunks tempF cols n with
    | mk rres rout =>
      rw [hrd] at hres
      dsimp only at hres
      rw [hres]
      exact ⟨rfl, fun hcon => by simp at hcon⟩
  | ok o =>
    rw [hfd] at hbridge
    have heq := hbridge.2 o rfl
    clear hbridge
    rw [heq]
    exact ⟨rfl, fun _ => rfl⟩

/-- Main bridge: the chunked pipeline and the flat pipeline always agree
on the outcome, and on success they agree on the full final file state. -/
theorem process_eq_flatProcess (parseD : Str → Str → Option Str)
    (rulesSrc : Except PyError CsvFile) (inputF : Option CsvFile)
    (st : PipelineState) {n : ℕ} (hn : 0 < n) (wh : Bool) :
    (processCsvInChunks parseD rulesSrc inputF st n wh).1 =
      (flatProcess parseD rulesSrc inputF st wh).1 ∧
    ((flatProcess parseD rulesSrc inputF st wh).1 = .ok () →
      processCsvInChunks parseD rulesSrc inputF st n wh =
        flatProcess parseD rulesSrc inputF st wh) := by
  unfold processCsvInChunks flatProcess
  cases hcols : getDeduplicationColumns rulesSrc with
  | some cols =>
    cases cols with
    | nil =>
      dsimp only
      rw [processWithout_eq_flat parseD rulesSrc inputF hn wh]
      cases inputF with
      | none => exact ⟨rfl, fun _ => rfl⟩
      | some f =>
        dsimp only
        cases hrec : f.records with
        | nil => exact ⟨rfl, fun _ => rfl⟩
        | cons hdrRec dataRecs => exact ⟨rfl, fun _ => rfl⟩
    | cons c cs =>
      dsimp only
      unfold processWithDeduplication
      rw [dedupPhase1_eq_flat parseD rulesSrc inputF hn wh]
      cases inputF with
      | none => exact ⟨rfl, fun _ => rfl⟩
      | some f =>
        dsimp only
        cases hrec : f.records with
        | nil => exact ⟨rfl, fun _ => rfl⟩
        | cons hdrRec dataRecs =>
          dsimp only
          cases hph : flatTransformPhase parseD rulesSrc hdrRec dataRecs wh true with
          | mk res written =>
            cases res with
            | error e => exact ⟨rfl, fun hcon => by cases hcon⟩
            | ok u =>
              dsimp only
              exact dedupTailBridge _ (c :: cs) hn
  | none =>
    dsimp only
    rw [processWithout_eq_flat parseD rulesSrc inputF hn wh]
    cases inputF with
    | none => exact ⟨rfl, fun _ => rfl⟩
    | some f =>
      dsimp only
      cases hrec : f.records with
      | nil => exact ⟨rfl, fun _ => rfl⟩
      | cons hdrRec dataRecs => exact ⟨rfl, fun _ => rfl⟩

/-! ### Claim theorems about the orchestrated pipeline -/

/-- C10: a run whose input file is absent still removes the pre-existing
final output file: the output component of the state is `none` afterwards
even though the run fails with `fileNotFound` and writes nothing.  (In
deduplication mode the stale intermediate file is also removed by the
step-1 failure handler; otherwise the intermediate path is untouched.) -/
theorem output_removed_before_input_check (parseD : Str → Str → Option Str)
    (rulesSrc : Except PyError CsvFile) (st : PipelineState) (n : ℕ) (wh : Bool) :
    processCsvInChunks parseD rulesSrc none st n wh =
      (.error .fileNotFound,
        ⟨none, if dedupActive rulesSrc then none else st.temp⟩) := by
  unfold processCsvInChunks dedupActive
  cases hcols : getDeduplicationColumns rulesSrc with
  | some cols =>
    cases cols with
    | nil => rfl
    | cons c cs => rfl
  | none => rfl

/-- C6: in deduplication mode, a transform-phase (step 1) failure removes
the intermediate artifact before the error is propagated (the final state
has `temp = none`, and also no output), and a fully successful run likewise
ends with the intermediate artifact removed. -/
theorem dedup_intermediate_cleanup (parseD : Str → Str → Option Str)
    (rulesSrc : Except PyError CsvFile) (inputF : Option CsvFile)
    (st : PipelineState) (n : ℕ) (wh : Bool) (c : Str) (cs : List Str)
    (hcols : getDeduplicationColumns rulesSrc = some (c :: cs)) :
    (∀ e, (dedupPhase1 parseD rulesSrc inputF n wh).1 = .error e →
      processCsvInChunks parseD rulesSrc inputF st n wh = (.error e, ⟨none, none⟩)) ∧
    ((processCsvInChunks parseD rulesSrc inputF st n wh).1 = .ok () →
      (processCsvInChunks parseD rulesSrc inputF st n wh).2.temp = none) := by
  unfold processCsvInChunks
  rw [hcols]
  dsimp only
  unfold processWithDeduplication
  cases hph : dedupPhase1 parseD rulesSrc inputF n wh with
  | mk res w =>
    constructor
    · intro e he
      dsimp only at he
      subst he
      rfl
    · cases res with
      | error e => intro hcon; simp at hcon
      | ok u =>
        dsimp only
        cases w with
        | none =>
          cases hrd : removeDuplicatesAcrossChunks st.temp (c :: cs) n with
          | mk rres rout =>
            cases rres with
            | error e => intro hcon; simp at hcon
            | ok u2 => intro _; rfl
        | some wf =>
          cases hrd : removeDuplicatesAcrossChunks (some wf) (c :: cs) n with
          | mk rres rout =>
            cases rres with
            | error e => intro hcon; simp at hcon
            | ok u2 => intro _; rfl

/-- With deduplication configured and a missing input file, step 1 fails
with `fileNotFound`; the run ends with both the stale output and the stale
intermediate artifact removed. -/
theorem dedup_intermediate_cleanup_witness :
    getDeduplicationColumns
      (.ok ⟨[[RawCell.str (ofS "r")], [RawCell.str (ofS "RemoveDuplicates/name")]]⟩) =
      some [ofS "name"] ∧
    (dedupPhase1 (fun _ _ => none)
      (.ok ⟨[[RawCell.str (ofS "r")], [RawCell.str (ofS "RemoveDuplicates/name")]]⟩)
      none 3 true).1 = .error .fileNotFound ∧
    processCsvInChunks (fun _ _ => none)
      (.ok ⟨[[RawCell.str (ofS "r")], [RawCell.str (ofS "RemoveDuplicates/name")]]⟩)
      none ⟨some ⟨[]⟩, some ⟨[[RawCell.str (ofS "x")]]⟩⟩ 3 true =
      (.error .fileNotFound, ⟨none, none⟩) :=
  ⟨by decide, by decide,
    (dedup_intermediate_cleanup (fun _ _ => none)
      (.ok ⟨[[RawCell.str (ofS "r")], [RawCell.str (ofS "RemoveDuplicates/name")]]⟩)
      none ⟨some ⟨[]⟩, some ⟨[[RawCell.str (ofS "x")]]⟩⟩ 3 true
      (ofS "name") [] (by decide)).1 .fileNotFound (by decide)⟩

/-- C7 counterexample: a failing rules source is *not* harmless.  With a
non-empty input and an unreadable rules file, the run fails with the
rules-reading error (raised inside `data_transformation`, which reads the
rules without a `try`/`except`), instead of falling back to default
behavior in every phase. -/
theorem rules_error_is_fatal_counterexample :
    processCsvInChunks (fun _ _ => none) (.error .rulesError)
      (some ⟨[[RawCell.str (ofS "h")], [RawCell.str (ofS "v")]]⟩)
      ⟨none, none⟩ 3 true = (.error .rulesError, ⟨none, none⟩) := by
  decide

/-- C7 amended: only the deduplication-column query treats a failing rules
source as "no special rules" (it returns `None`, so the run takes No-Dedup
Mode); the Row Transformer re-reads the rules unprotected, so on any input
with at least one data row the run aborts with the rules-reading error
(leaving no output; the intermediate path is untouched in this mode). -/
theorem rules_error_query_fallback_but_transform_fatal
    (parseD : Str → Str → Option Str) (e : PyError) (hdrRec : List RawCell)
    (dataRecs : List (List RawCell)) (st : PipelineState) (n : ℕ)
    (hn : 0 < n) (wh : Bool) (hne : dataRecs ≠ []) :
    getDeduplicationColumns (.error e) = none ∧
    processCsvInChunks parseD (.error e) (some ⟨hdrRec :: dataRecs⟩) st n wh =
      (.error e, ⟨none, st.temp⟩) := by
  refine ⟨rfl, ?_⟩
  unfold processCsvInChunks
  rw [show getDeduplicationColumns (Except.error e : Except PyError CsvFile) = none from rfl]
  dsimp only
  rw [processWithout_eq_flat parseD (.error e) (some ⟨hdrRec :: dataRecs⟩) hn wh]
  cases dataRecs with
  | nil => exact absurd rfl hne
  | cons r t =>
    dsimp only
    rw [flatTransformPhase_cons]
    rw [show dataTransformation parseD (Except.error e)
        ⟨headerNames hdrRec, materializeRows 0 (r :: t)⟩ false = Except.error e from rfl]

/-- A concrete no-dedup run with an unreadable rules file: the
deduplication-column query falls back to `None`, yet the run aborts. -/
theorem rules_error_query_fallback_but_transform_fatal_witness :
    getDeduplicationColumns (.error .fileNotFound) = none ∧
    processCsvInChunks (fun _ _ => none) (.error .fileNotFound)
      (some ⟨[[RawCell.str (ofS "h")], [RawCell.num 1]]⟩) ⟨none, some ⟨[]⟩⟩ 2 false =
      (.error .fileNotFound, ⟨none, some ⟨[]⟩⟩) :=
  rules_error_query_fallback_but_transform_fatal (fun _ _ => none) .fileNotFound
    [RawCell.str (ofS "h")] [[RawCell.num 1]] ⟨none, some ⟨[]⟩⟩ 2 (by decide) false
    (by decide)

/-! ### Row counts through the transformer -/

theorem flatDedup_ok_some_shape {tempF : Option CsvFile} {cols : List Str}
    {g : CsvFile} (h : flatDedup tempF cols = .ok (some g)) :
    ∃ (names : List Str) (kept : List (List PyVal)),
      g = ⟨names.map RawCell.str :: kept.map unmaterializeRow⟩ := by
  unfold flatDedup at h
  cases tempF with
  | none => cases h
  | some f =>
    dsimp only at h
    cases hrec : f.records with
    | nil => rw [hrec] at h; cases h
    | cons hdrRec dataRecs =>
      rw [hrec] at h
      dsimp only at h
      cases hfk : flatKept (makeKey cols (headerNames hdrRec))
          (pass1Flat (makeKey cols (headerNames hdrRec))
            ((materializeRows 1 dataRecs).enumFrom 0) [])
          ((materializeRows 2 dataRecs).enumFrom 0) with
      | error e => rw [hfk] at h; cases h
      | ok kept =>
        rw [hfk] at h
        dsimp only at h
        split at h
        · injection h with h; cases h
        · injection h with h
          injection h with h
          exact ⟨headerNames hdrRec, kept, h.symm⟩

theorem flatProcess_output_shape (parseD : Str → Str → Option Str)
    (rulesSrc : Except PyError CsvFile) (inputF : Option CsvFile)
    (st : PipelineState) (wh : Bool)
    (hok : (flatProcess parseD rulesSrc inputF st wh).1 = .ok ()) :
    (dedupActive rulesSrc = false →
      (flatProcess parseD rulesSrc inputF st wh).2.output = none ∨
      ∃ df : DataFrame,
        (flatProcess parseD rulesSrc inputF st wh).2.output =
          some ⟨(if wh then [df.header.map RawCell.str] else []) ++
            df.rows.map unmaterializeRow⟩) ∧
    (dedupActive rulesSrc = true →
      (flatProcess parseD rulesSrc inputF st wh).2.output = none ∨
      ∃ (names : List Str) (kept : List (List PyVal)),
        (flatProcess parseD rulesSrc inputF st wh).2.output =
          some ⟨names.map RawCell.str :: kept.map unmaterializeRow⟩) := by
  have hda : dedupActive rulesSrc =
      (match getDeduplicationColumns rulesSrc with
        | some (_ :: _) => true
        | _ => false) := rfl
  unfold flatProcess at *
  cases hcols : getDeduplicationColumns rulesSrc with
  | some cols =>
    cases cols with
    | nil =>
      rw [hcols] at hok hda
      dsimp only at hok hda ⊢
      refine ⟨?_, fun hcon => absurd (hda.symm.trans hcon) (by simp)⟩
      intro _
      cases inputF with
      | none => simp at hok
      | some f =>
        dsimp only at hok ⊢
        cases hrec : f.records with
        | nil => rw [hrec] at hok; simp at hok
        | cons hdrRec dataRecs =>
          rw [hrec] at hok
          dsimp only at hok ⊢
          cases dataRecs with
          | nil => exact Or.inl rfl
          | cons r t =>
            rw [flatTransformPhase_cons] at hok ⊢
            cases htr : dataTransformation parseD rulesSrc
                ⟨headerNames hdrRec, materializeRows 0 (r :: t)⟩ false with
            | error e => rw [htr] at hok; simp at hok
            | ok df => exact Or.inr ⟨df, rfl⟩
    | cons c cs =>
      rw [hcols] at hok hda
      dsimp only at hok hda ⊢
      refine ⟨fun hcon => absurd (hda.symm.trans hcon).symm (by simp), ?_⟩
      intro _
      cases inputF with
      | none => simp at hok
      | some f =>
        dsimp only at hok ⊢
        cases hrec : f.records with
        | nil => rw [hrec] at hok; simp at hok
        | cons hdrRec dataRecs =>
          rw [hrec] at hok
          dsimp only at hok ⊢
          cases hph : flatTransformPhase parseD rulesSrc hdrRec dataRecs wh true with
          | mk res written =>
            rw [hph] at hok
            cases res with
            | error e => simp at hok
            | ok u =>
              dsimp only at hok ⊢
              cases written with
              | none =>
                dsimp only at hok ⊢
                cases hfd : flatDedup st.temp (c :: cs) with
                | error e => rw [hfd] at hok; simp at hok
                | ok o =>
                  cases o with
                  | none => exact Or.inl rfl
                  | some g =>
                    obtain ⟨names, kept, hg⟩ := flatDedup_ok_some_shape hfd
                    exact Or.inr ⟨names, kept, by rw [hg]⟩
              | some w =>
                dsimp only at hok ⊢
                cases hfd : flatDedup (some w) (c :: cs) with
                | error e => rw [hfd] at hok; simp at hok
                | ok o =>
                  cases o with
                  | none => exact Or.inl rfl
                  | some g =>
                    obtain ⟨names, kept, hg⟩ := flatDedup_ok_some_shape hfd
                    exact Or.inr ⟨names, kept, by rw [hg]⟩
  | none =>
    rw [hcols] at hok hda
    dsimp only at hok hda ⊢
    refine ⟨?_, fun hcon => absurd (hda.symm.trans hcon) (by simp)⟩
    intro _
    cases inputF with
    | none => simp at hok
    | some f =>
      dsimp only at hok ⊢
      cases hrec : f.records with
      | nil => rw [hrec] at hok; simp at hok
      | cons hdrRec dataRecs =>
        rw [hrec] at hok
        dsimp only at hok ⊢
        cases dataRecs with
        | nil => exact Or.inl rfl
        | cons r t =>
          rw [flatTransformPhase_cons] at hok ⊢
          cases htr : dataTransformation parseD rulesSrc
              ⟨headerNames hdrRec, materializeRows 0 (r :: t)⟩ false with
          | error e => rw [htr] at hok; simp at hok
          | ok df => exact Or.inr ⟨df, rfl⟩

/-- C5 counterexample: a successful Dedup-Mode run with
`write_header = False` still writes a header line.  Step 1 writes the
intermediate artifact headerless, so the dedup pass mistakes the first
transformed data row `("Ann", 11)` for the header and `to_csv`
(called without `header=...`) writes it as a header line: the output's
first record is the stringified `["Ann", "11"]`, which is not among the
transformed data rows, and the genuine first data row is consumed. -/
theorem header_written_despite_wh_false_counterexample :
    processCsvInChunks (fun _ _ => none)
      (.ok ⟨[[RawCell.str (ofS "r")], [RawCell.str (ofS "RemoveDuplicates/name")]]⟩)
      (some ⟨[[RawCell.str (ofS "name"), RawCell.str (ofS "age")],
              [RawCell.str (ofS "Ann"), RawCell.num 11],
              [RawCell.str (ofS "Bob"), RawCell.num 12]]⟩)
      ⟨none, none⟩ 10 false =
      (.ok (), ⟨some ⟨[[RawCell.str (ofS "Ann"), RawCell.str (ofS "11")],
                       [RawCell.str (ofS "Bob"), RawCell.num 12]]⟩, none⟩) ∧
    [RawCell.str (ofS "Ann"), RawCell.str (ofS "11")] ∉
      [[RawCell.str (ofS "Ann"), RawCell.num 11],
       [RawCell.str (ofS "Bob"), RawCell.num 12]] :=
  ⟨by decide, by decide⟩

/-- C5 amended: in every successful No-Dedup-Mode run the output file (when
one is written) is a single optional header record — present iff
`write_header`, never repeated by later chunks — followed only by data
rows; in every successful Dedup-Mode run the output file starts with
exactly one header record regardless of `write_header` (a stringified
record derived from the artifact's first line, which for
`write_header = False` is the artifact's first data row), followed only
by data rows. -/
theorem header_once_amended (parseD : Str → Str → Option Str)
    (rulesSrc : Except PyError CsvFile) (inputF : Option CsvFile)
    (st : PipelineState) (n : ℕ) (hn : 0 < n) (wh : Bool)
    (hok : (processCsvInChunks parseD rulesSrc inputF st n wh).1 = .ok ()) :
    (dedupActive rulesSrc = false →
      (processCsvInChunks parseD rulesSrc inputF st n wh).2.output = none ∨
      ∃ df : DataFrame,
        (processCsvInChunks parseD rulesSrc inputF st n wh).2.output =
          some ⟨(if wh then [df.header.map RawCell.str] else []) ++
            df.rows.map unmaterializeRow⟩) ∧
    (dedupActive rulesSrc = true →
      (processCsvInChunks parseD rulesSrc inputF st n wh).2.output = none ∨
      ∃ (names : List Str) (kept : List (List PyVal)),
        (processCsvInChunks parseD rulesSrc inputF st n wh).2.output =
          some ⟨names.map RawCell.str :: kept.map unmaterializeRow⟩) := by
  have hb := process_eq_flatProcess parseD rulesSrc inputF st hn wh
  have hfok : (flatProcess parseD rulesSrc inputF st wh).1 = .ok () :=
    hb.1.symm.trans hok
  rw [hb.2 hfok]
  exact flatProcess_output_shape parseD rulesSrc inputF st wh hfok

/-- The counterexample's run, through the amended theorem: a successful
Dedup-Mode run with `write_header = False` whose output nonetheless opens
with a single stringified header record. -/
theorem header_once_amended_witness :
    (dedupActive
        (.ok ⟨[[RawCell.str (ofS "r")], [RawCell.str (ofS "RemoveDuplicates/name")]]⟩) = false →
      (processCsvInChunks (fun _ _ => none)
        (.ok ⟨[[RawCell.str (ofS "r")], [RawCell.str (ofS "RemoveDuplicates/name")]]⟩)
        (some ⟨[[RawCell.str (ofS "name"), RawCell.str (ofS "age")],
                [RawCell.str (ofS "Ann"), RawCell.num 11],
                [RawCell.str (ofS "Bob"), RawCell.num 12]]⟩)
        ⟨none, none⟩ 3 false).2.output = none ∨
      ∃ df : DataFrame,
        (processCsvInChunks (fun _ _ => none)
          (.ok ⟨[[RawCell.str (ofS "r")], [RawCell.str (ofS "RemoveDuplicates/name")]]⟩)
          (some ⟨[[RawCell.str (ofS "name"), RawCell.str (ofS "age")],
                  [RawCell.str (ofS "Ann"), RawCell.num 11],
                  [RawCell.str (ofS "Bob"), RawCell.num 12]]⟩)
          ⟨none, none⟩ 3 false).2.output =
          some ⟨(if false then [df.header.map RawCell.str] else []) ++
            df.rows.map unmaterializeRow⟩) ∧
    (dedupActive
        (.ok ⟨[[RawCell.str (ofS "r")], [RawCell.str (ofS "RemoveDuplicates/name")]]⟩) = true →
      (processCsvInChunks (fun _ _ => none)
        (.ok ⟨[[RawCell.str (ofS "r")], [RawCell.str (ofS "RemoveDuplicates/name")]]⟩)
        (some ⟨[[RawCell.str (ofS "name"), RawCell.str (ofS "age")],
                [RawCell.str (ofS "Ann"), RawCell.num 11],
                [RawCell.str (ofS "Bob"), RawCell.num 12]]⟩)
        ⟨none, none⟩ 3 false).2.output = none ∨
      ∃ (names : List Str) (kept : List (List PyVal)),
        (processCsvInChunks (fun _ _ => none)
          (.ok ⟨[[RawCell.str (ofS "r")], [RawCell.str (ofS "RemoveDuplicates/name")]]⟩)
          (some ⟨[[RawCell.str (ofS "name"), RawCell.str (ofS "age")],
                  [RawCell.str (ofS "Ann"), RawCell.num 11],
                  [RawCell.str (ofS "Bob"), RawCell.num 12]]⟩)
          ⟨none, none⟩ 3 false).2.output =
          some ⟨names.map RawCell.str :: kept.map unmaterializeRow⟩) :=
  header_once_amended (fun _ _ => none)
    (.ok ⟨[[RawCell.str (ofS "r")], [RawCell.str (ofS "RemoveDuplicates/name")]]⟩)
    (some ⟨[[RawCell.str (ofS "name"), RawCell.str (ofS "age")],
            [RawCell.str (ofS "Ann"), RawCell.num 11],
            [RawCell.str (ofS "Bob"), RawCell.num 12]]⟩)
    ⟨none, none⟩ 3 (by decide) false (by decide)

/-! ### Lowercased deduplication columns (C9) -/

theorem extractDedupCols_noUpper :
    ∀ {l : List Str} {cols : List Str}, extractDedupCols l = some cols →
      ∀ s ∈ cols, noUpper s = true := by
  intro l
  induction l with
  | nil => intro cols h; cases h
  | cons v t ih =>
    intro cols h
    unfold extractDedupCols at h
    split at h
    · dsimp only at h
      split at h
      · exact ih h
      · injection h with h
        subst h
        intro s hs
        rw [List.mem_filter] at hs
        obtain ⟨hs, -⟩ := hs
        rw [List.mem_map] at hs
        obtain ⟨part, hpart, hstrim⟩ := hs
        subst hstrim
        refine noUpper_of_subset ?_ (noUpper_lowerStr v)
        intro ch hch
        exact mem_replaceAllFuel_nilRep (mem_splitOnChar hpart (mem_trimStr hch))
    · exact ih h

theorem getDeduplicationColumns_noUpper {rulesSrc : Except PyError CsvFile}
    {cols : List Str} (h : getDeduplicationColumns rulesSrc = some cols) :
    ∀ s ∈ cols, noUpper s = true := by
  unfold getDeduplicationColumns at h
  cases rulesSrc with
  | error e => cases h
  | ok rules =>
    dsimp only at h
    split at h
    · cases h
    · exact extractDedupCols_noUpper h

theorem specKey_nil_of_disjoint {cols hdr : List Str}
    (hdisj : ∀ c ∈ cols, c ∉ hdr) (rec : List RawCell) :
    specKey cols hdr rec = [] := by
  unfold specKey
  have hfil : cols.filter (fun c => hdr.contains c) = [] := by
    rw [List.filter_eq_nil]
    intro c hc
    simpa using hdisj c hc
  rw [hfil]
  rfl

theorem keepFirstOccurrences_const_key (keyOf : List RawCell → List RawCell)
    (hconst : ∀ a b, keyOf a = keyOf b) (recs : List (List RawCell)) :
    keepFirstOccurrences keyOf recs = recs.take 1 := by
  cases recs with
  | nil => rfl
  | cons r t =>
    unfold keepFirstOccurrences
    rw [List.enumFrom_cons, List.filter_cons]
    have hhead : ((r :: t).findIdx? (fun x => keyOf r == keyOf x) 0 == some 0) = true := by
      rw [List.findIdx?_cons, if_pos (beq_self_eq_true (keyOf r))]
      rfl
    rw [if_pos hhead]
    have hnil : (t.enumFrom 1).filter (fun p =>
        (r :: t).findIdx? (fun x => keyOf p.2 == keyOf x) 0 == some p.1) = [] := by
      rw [List.filter_eq_nil]
      intro p hp
      have hp1 : 1 ≤ p.1 := (enumFrom_fst_bounds hp).1
      have hfind : (r :: t).findIdx? (fun x => keyOf p.2 == keyOf x) 0 = some 0 := by
        rw [List.findIdx?_cons,
          if_pos (show (keyOf p.2 == keyOf r) = true from by
            rw [hconst p.2 r]; exact beq_self_eq_true (keyOf r))]
      rw [hfind]
      simp
      omega
    rw [hnil]
    rfl

/-- C9: the deduplication column names handed to the engine are always
lowercased (`get_deduplication_columns` lowercases the rule cell before
splitting); consequently, when the artifact's header retains capitals so
that none of the configured names matches a schema column, every row's
Deduplication Key is the empty tuple, and the deduplicated output of any
non-empty artifact is exactly its first data row — every other row is
silently dropped, with no error, for every chunk size. -/
theorem dedup_columns_lowercased_and_mismatch_keeps_first
    (rulesSrc : Except PyError CsvFile) (cols : List Str)
    (hcols : getDeduplicationColumns rulesSrc = some cols) :
    (∀ s ∈ cols, noUpper s = true) ∧
    (∀ (hdrRec r : List RawCell) (t : List (List RawCell)) (n : ℕ), 0 < n →
      (∀ c ∈ cols, c ∉ headerNames hdrRec) →
      removeDuplicatesAcrossChunks (some ⟨hdrRec :: r :: t⟩) cols n =
        (.ok (), some ⟨((headerNames hdrRec).map RawCell.str) :: [r]⟩)) := by
  refine ⟨getDeduplicationColumns_noUpper hcols, ?_⟩
  intro hdrRec r t n hn hdisj
  have hp : keyCellsPresent cols (headerNames hdrRec) (r :: t) :=
    fun rec _ c hc hmem => absurd hmem (hdisj c hc)
  have hflat := flatDedup_of_present cols hdrRec (r :: t) hp
  have hconst : ∀ a b, specKey cols (headerNames hdrRec) a =
      specKey cols (headerNames hdrRec) b := by
    intro a b
    rw [specKey_nil_of_disjoint hdisj a, specKey_nil_of_disjoint hdisj b]
  rw [keepFirstOccurrences_const_key _ hconst] at hflat
  exact (removeDuplicates_eq_flat hn _ cols).2 _ hflat

/-- Configured `RemoveDuplicates/Name`, artifact header `Name`: the
extracted column is the lowercased `name`, which misses the capitalized
schema, so only the first of the three rows survives. -/
theorem dedup_columns_lowercased_and_mismatch_keeps_first_witness :
    noUpper (ofS "name") = true ∧
    removeDuplicatesAcrossChunks
      (some ⟨[[RawCell.str (ofS "Name")], [RawCell.str (ofS "Ann")],
              [RawCell.str (ofS "Bob")], [RawCell.str (ofS "Ann")]]⟩)
      [ofS "name"] 2 =
      (.ok (), some ⟨[[RawCell.str (ofS "Name")], [RawCell.str (ofS "Ann")]]⟩) :=
  ⟨(dedup_columns_lowercased_and_mismatch_keeps_first
      (.ok ⟨[[RawCell.str (ofS "r")], [RawCell.str (ofS "RemoveDuplicates/Name")]]⟩)
      [ofS "name"] (by decide)).1 (ofS "name") (by decide),
   (dedup_columns_lowercased_and_mismatch_keeps_first
      (.ok ⟨[[RawCell.str (ofS "r")], [RawCell.str (ofS "RemoveDuplicates/Name")]]⟩)
      [ofS "name"] (by decide)).2 [RawCell.str (ofS "Name")] [RawCell.str (ofS "Ann")]
      [[RawCell.str (ofS "Bob")], [RawCell.str (ofS "Ann")]] 2 (by decide) (by decide)⟩

end ExcelX
